import Mathlib

/-!
Verification of the lessdb core: a shallow embedding of the SkipList
(`SkipList.h`), the block decoder and its cursor (`Block.cc`), and
`MemTable::Add` (`MemTable.cc`), with theorems settling the specification
claims about them.

Modelling conventions:
* machine pointers become indices (`Nat`) into a list of nodes, with
  `Option Nat` for possibly-null pointers (`none` = `nullptr`);
* byte buffers become `List Nat` (one `Nat` < 256 per byte);
* the C++ `while` loops become fuel-indexed recursions, with enough fuel
  supplied at every call site for the loop to reach its real exit;
* the pseudo-random generator is modelled by an explicit list of draws.
-/

namespace LessDB

/-! ## SkipList: data model (SkipList.h) -/

/-- One skip-list node: an immutable key plus the per-level forward pointers
(`forward` in the source).  Index 0 of the node store is the head sentinel. -/
structure SLNode (T : Type) where
  key : T
  forward : List (Option Nat)
deriving DecidableEq

/-- The skip list: the arena of allocated nodes (head sentinel at index 0)
and the current height (`height_`). -/
structure SkipList (T : Type) where
  nodes : List (SLNode T)
  height : Nat
deriving DecidableEq

/-- `MaxLevel` from the source. -/
def maxLevel : Nat := 12

variable {T : Type} [Inhabited T]

/-- A freshly constructed skip list: head node of maximal height with all
forward pointers null, height 1 (the constructor in the source). -/
def SkipList.empty (t0 : T) : SkipList T :=
  ⟨[⟨t0, List.replicate maxLevel none⟩], 1⟩

/-- `x->Next(level)`: the forward pointer of node `x` at `level`
(out-of-range reads yield `none`, which never happens on well-formed data). -/
def nxt (s : SkipList T) (x l : Nat) : Option Nat :=
  match s.nodes[x]? with
  | none => none
  | some nd =>
    match nd.forward[l]? with
    | none => none
    | some o => o

/-- The key stored at node `x`. -/
def keyOf (s : SkipList T) (x : Nat) : T :=
  match s.nodes[x]? with
  | none => default
  | some nd => nd.key

/-- The inner loop of every search in the source:
`while (next != nullptr && p(next->key)) x = next;`.
`p` instantiates to `fun a => lt a key` (Insert/Find/LowerBound) or to
`fun a => !(lt key a)` (UpperBound). -/
def advance (p : T → Bool) (s : SkipList T) (l : Nat) : Nat → Nat → Nat
  | 0, x => x
  | fuel + 1, x =>
    match nxt s x l with
    | none => x
    | some j => if p (keyOf s j) then advance p s l fuel j else x

/-- The level-descent of the source's search loops, recording the final node
of each level (the `update` array of `Insert`, built from level `l` down to
level 0; the returned list is `[update l, update (l-1), ..., update 0]`). -/
def updList (p : T → Bool) (s : SkipList T) (fuel : Nat) : Nat → Nat → List Nat
  | x, 0 => [advance p s 0 fuel x]
  | x, l + 1 =>
    advance p s (l + 1) fuel x :: updList p s fuel (advance p s (l + 1) fuel x) l

/-- `randomLevel()`: start at height 1 and keep growing while below
`MaxLevel` and the next random draw is 0. -/
def randomLevelAux : Nat → List Nat → Nat
  | h, [] => h
  | h, d :: ds => if h < maxLevel && d == 0 then randomLevelAux (h + 1) ds else h

/-- `randomLevel()` reading its draws from an explicit list. -/
def randomLevel (draws : List Nat) : Nat := randomLevelAux 1 draws

/-- `keyEq(k1, k2)` from the source: `!compare_(k2, k1) && !compare_(k1, k2)`. -/
def keyEq (lt : T → T → Bool) (k1 k2 : T) : Bool := !(lt k2 k1) && !(lt k1 k2)

/-- `update[i]->SetNext(x, i)`: redirect node `u`'s forward pointer at level
`i` to the new node `n`. -/
def setFwd (nodes : List (SLNode T)) (u i n : Nat) : List (SLNode T) :=
  match nodes[u]? with
  | none => nodes
  | some nd => nodes.set u { nd with forward := nd.forward.set i (some n) }

/-- The linking loop of `Insert`: for levels `0 ≤ i < lvl`, publish the new
node `n` as `update[i]`'s successor. -/
def linkAll (nodes : List (SLNode T)) (us : List Nat) (n : Nat) : Nat → List (SLNode T)
  | 0 => nodes
  | i + 1 => setFwd (linkAll nodes us n i) (us.getD i 0) i n

/-- The tail of `SkipList::Insert` once the duplicate check has failed:
choose the random level, raise the height if needed (`update[i] = head_` for
the new levels is realized by `us.getD i 0` defaulting to the head), build
the new node with its forward pointers copied from the predecessors, and
link it in at every level. -/
def insertNew (s : SkipList T) (key : T) (draws : List Nat) (us : List Nat) :
    SkipList T × Option Nat :=
  let lvl := randomLevel draws
  let n := s.nodes.length
  let newFwd : List (Option Nat) := (List.range lvl).map fun i => nxt s (us.getD i 0) i
  let nodes1 := s.nodes ++ [⟨key, newFwd⟩]
  ({ nodes := linkAll nodes1 us n lvl, height := max s.height lvl }, some n)

/-- `SkipList::Insert`: descend recording predecessors, return the existing
node if the key is already present under comparator equivalence, otherwise
link in a fresh node.  The returned `Option Nat` is the iterator (node
index, `none` = end). -/
def SkipList.Insert (lt : T → T → Bool) (s : SkipList T) (key : T) (draws : List Nat) :
    SkipList T × Option Nat :=
  let fuel := s.nodes.length
  let us := (updList (fun a => lt a key) s fuel 0 (s.height - 1)).reverse
  match nxt s (us.getD 0 0) 0 with
  | some j =>
    if keyEq lt key (keyOf s j) then (s, some j) else insertNew s key draws us
  | none => insertNew s key draws us

/-- `SkipList::Find`. -/
def SkipList.Find (lt : T → T → Bool) (s : SkipList T) (key : T) : Option Nat :=
  let fuel := s.nodes.length
  let u0 := (updList (fun a => lt a key) s fuel 0 (s.height - 1)).getLastD 0
  match nxt s u0 0 with
  | none => none
  | some j => if lt key (keyOf s j) then none else some j

/-- `SkipList::LowerBound`: the successor, at level 0, of the final
descent position. -/
def SkipList.LowerBound (lt : T → T → Bool) (s : SkipList T) (key : T) : Option Nat :=
  let u0 := (updList (fun a => lt a key) s s.nodes.length 0 (s.height - 1)).getLastD 0
  nxt s u0 0

/-- `SkipList::UpperBound`: same descent with loop condition
`!compare_(key, next->key)`. -/
def SkipList.UpperBound (lt : T → T → Bool) (s : SkipList T) (key : T) : Option Nat :=
  let u0 := (updList (fun a => !(lt key a)) s s.nodes.length 0 (s.height - 1)).getLastD 0
  nxt s u0 0

/-- The chain of node indices reached from node `x` by following level-`l`
pointers (`x` itself excluded). -/
def chainFrom (s : SkipList T) (l : Nat) : Nat → Nat → List Nat
  | 0, _ => []
  | fuel + 1, x =>
    match nxt s x l with
    | none => []
    | some j => j :: chainFrom s l fuel j

/-- The full level-`l` chain, starting from the head sentinel. -/
def chainAll (s : SkipList T) (l : Nat) : List Nat :=
  chainFrom s l s.nodes.length 0

/-- The in-order traversal from `Begin()` to `End()`: the keys along the
level-0 chain. -/
def SkipList.toList (s : SkipList T) : List T := (chainAll s 0).map (keyOf s)

/-- Running a whole sequence of `Insert` calls (each with its own random
draws) from a fresh list. -/
def insertSeq (lt : T → T → Bool) (t0 : T) (ops : List (T × List Nat)) : SkipList T :=
  ops.foldl (fun s op => (s.Insert lt op.1 op.2).1) (SkipList.empty t0)

/-- The reference "insert into a sorted set" operation: place `k` before the
first element not less than it, unless that element is comparator-equivalent
to `k`, in which case the list is unchanged. -/
def linsert (lt : T → T → Bool) (k : T) (l : List T) : List T :=
  match l.dropWhile (fun x => lt x k) with
  | [] => l.takeWhile (fun x => lt x k) ++ [k]
  | x :: tl =>
    if keyEq lt k x then l
    else l.takeWhile (fun x => lt x k) ++ k :: x :: tl

/-! ## The comparator contract: strict weak ordering
(`Compare` in the source "defines a strict weak ordering"). -/

/-- `lt` is a strict weak ordering: irreflexive, transitive, with transitive
incomparability. -/
structure IsSWO (lt : T → T → Bool) : Prop where
  irrefl : ∀ a, lt a a = false
  trans : ∀ a b c, lt a b = true → lt b c = true → lt a c = true
  incomp_trans : ∀ a b c, lt a b = false → lt b a = false →
    lt b c = false → lt c b = false → lt a c = false ∧ lt c a = false

namespace IsSWO

variable {lt : T → T → Bool}

theorem asym (hswo : IsSWO lt) {a b : T} (h : lt a b = true) : lt b a = false := by
  cases hba : lt b a
  · rfl
  · have := hswo.trans a b a h hba
    rw [hswo.irrefl] at this
    exact this.symm

/-- In a strict weak ordering, `a < b` and `b ≈ c` give `a < c`. -/
theorem lt_of_lt_of_incomp (hswo : IsSWO lt) {a b c : T} (hab : lt a b = true)
    (h1 : lt b c = false) (h2 : lt c b = false) : lt a c = true := by
  cases hac : lt a c
  · exfalso
    have hca : lt c a = false := by
      cases hca : lt c a
      · rfl
      · have := hswo.trans c a b hca hab
        rw [h2] at this
        exact absurd this (by simp)
    have := hswo.incomp_trans a c b hac hca h2 h1
    rw [hab] at this
    exact absurd this.1 (by simp)
  · rfl

/-- In a strict weak ordering, `a ≈ b` and `b < c` give `a < c`. -/
theorem lt_of_incomp_of_lt (hswo : IsSWO lt) {a b c : T} (h1 : lt a b = false) (h2 : lt b a = false)
    (hbc : lt b c = true) : lt a c = true := by
  cases hac : lt a c
  · exfalso
    have hca : lt c a = false := by
      cases hca : lt c a
      · rfl
      · have := hswo.trans b c a hbc hca
        rw [h2] at this
        exact absurd this (by simp)
    have := hswo.incomp_trans b a c h2 h1 hac hca
    rw [hbc] at this
    exact absurd this.1 (by simp)
  · rfl

end IsSWO

/-! ## Generic list helpers -/

theorem getLastD_append (B : List Nat) : ∀ (A : List Nat) (d : Nat),
    (A ++ B).getLastD d = B.getLastD (A.getLastD d)
  | [], _ => rfl
  | a :: A', d => by
    rw [List.cons_append, List.getLastD_cons, List.getLastD_cons,
      getLastD_append B A' a]

theorem getLastD_mem : ∀ {L : List Nat}, L ≠ [] → ∀ d : Nat, L.getLastD d ∈ L
  | [], h, _ => absurd rfl h
  | [a], _, d => by simp
  | a :: b :: L', _, d => by
    rw [List.getLastD_cons]
    exact List.mem_cons_of_mem _ (getLastD_mem (by simp) a)

theorem take_getLastD : ∀ (C : List Nat) (k d : Nat) (h : k < C.length),
    (C.take (k + 1)).getLastD d = C[k]
  | [], k, d, h => by simp at h
  | c :: C', 0, d, _ => by simp
  | c :: C', k + 1, d, h => by
    rw [List.take_succ_cons, List.getLastD_cons, List.getElem_cons_succ]
    exact take_getLastD C' k c (by simpa using h)

theorem takeWhile_take_split {α : Type} (q : α → Bool) (d : α) :
    ∀ (C : List α) (k : Nat), k < C.length → (∀ i, i ≤ k → q (C.getD i d) = true) →
    C.takeWhile q = C.take (k + 1) ++ (C.drop (k + 1)).takeWhile q
  | [], k, h, _ => by simp at h
  | c :: C', 0, _, hq => by
    have h0 : q c = true := hq 0 (Nat.le_refl 0)
    simp [List.takeWhile_cons, h0]
  | c :: C', k + 1, h, hq => by
    have h0 : q c = true := hq 0 (Nat.zero_le _)
    rw [List.takeWhile_cons_of_pos h0, List.take_succ_cons, List.drop_succ_cons,
      List.cons_append]
    rw [takeWhile_take_split q d C' k (by simpa using h)
      (fun i hi => hq (i + 1) (Nat.succ_le_succ hi))]

/-! ## Chain lemmas -/

theorem chainFrom_succ (s : SkipList T) (l f x : Nat) :
    chainFrom s l (f + 1) x =
      match nxt s x l with
      | none => []
      | some j => j :: chainFrom s l f j := rfl

theorem chainFrom_succ_none {s : SkipList T} {l x : Nat} (f : Nat)
    (h : nxt s x l = none) : chainFrom s l (f + 1) x = [] := by
  rw [chainFrom_succ, h]

theorem chainFrom_succ_some {s : SkipList T} {l x j : Nat} (f : Nat)
    (h : nxt s x l = some j) :
    chainFrom s l (f + 1) x = j :: chainFrom s l f j := by
  rw [chainFrom_succ, h]

theorem nxt_eq_head? (s : SkipList T) (l f x : Nat) :
    nxt s x l = (chainFrom s l (f + 1) x).head? := by
  rw [chainFrom_succ]
  cases nxt s x l <;> simp

theorem chainFrom_mem_nxt (s : SkipList T) (l : Nat) :
    ∀ (f x j : Nat), j ∈ chainFrom s l f x → ∃ y, nxt s y l = some j
  | 0, _, _, h => by simp [chainFrom] at h
  | f + 1, x, j, h => by
    rw [chainFrom_succ] at h
    cases hnxt : nxt s x l with
    | none => rw [hnxt] at h; simp at h
    | some a =>
      rw [hnxt] at h
      rcases List.mem_cons.1 h with rfl | h'
      · exact ⟨x, hnxt⟩
      · exact chainFrom_mem_nxt s l f a j h'

theorem chainFrom_append (s : SkipList T) (l : Nat) :
    ∀ (A : List Nat) (f x : Nat) (B : List Nat), chainFrom s l f x = A ++ B →
    chainFrom s l (f - A.length) (A.getLastD x) = B
  | [], f, x, B, h => by simpa using h
  | a :: A', f, x, B, h => by
    cases f with
    | zero => simp [chainFrom] at h
    | succ f' =>
      rw [chainFrom_succ] at h
      cases hnxt : nxt s x l with
      | none => rw [hnxt] at h; simp at h
      | some j =>
        rw [hnxt] at h
        rw [List.cons_append] at h
        obtain ⟨hja, h2⟩ := List.cons_eq_cons.1 h
        subst hja
        rw [List.getLastD_cons]
        have hl2 : (f' + 1) - (A'.length + 1) = f' - A'.length := by omega
        simpa [hl2] using chainFrom_append s l A' f' _ B h2

theorem chainFrom_stable (s : SkipList T) (l : Nat) :
    ∀ (f f' x : Nat), f ≤ f' →
    nxt s ((chainFrom s l f x).getLastD x) l = none →
    chainFrom s l f' x = chainFrom s l f x := by
  intro f
  induction f with
  | zero =>
    intro f' x _ hc
    simp only [chainFrom, List.getLastD_nil] at hc
    cases f' with
    | zero => rfl
    | succ f2 => rw [chainFrom_succ, hc]; rfl
  | succ f ih =>
    intro f' x hle hc
    obtain ⟨f2, rfl⟩ : ∃ f2, f' = f2 + 1 := ⟨f' - 1, by omega⟩
    cases hnxt : nxt s x l with
    | none => rw [chainFrom_succ_none f2 hnxt, chainFrom_succ_none f hnxt]
    | some j =>
      rw [chainFrom_succ_some f hnxt, List.getLastD_cons] at hc
      rw [chainFrom_succ_some f2 hnxt, chainFrom_succ_some f hnxt,
        ih f2 j (by omega) hc]

theorem chainFrom_congr (s s' : SkipList T) (l : Nat) :
    ∀ (f x : Nat), (∀ y, (y = x ∨ y ∈ chainFrom s l f x) → nxt s' y l = nxt s y l) →
    chainFrom s' l f x = chainFrom s l f x
  | 0, _, _ => rfl
  | f + 1, x, h => by
    have hx := h x (Or.inl rfl)
    cases hnxt : nxt s x l with
    | none =>
      rw [chainFrom_succ_none f hnxt, chainFrom_succ_none f (hx.trans hnxt)]
    | some j =>
      rw [chainFrom_succ_some f hnxt, chainFrom_succ_some f (hx.trans hnxt)]
      rw [chainFrom_congr s s' l f j (fun y hy => h y (Or.inr (by
        rw [chainFrom_succ_some f hnxt]
        rcases hy with rfl | hy
        · exact List.mem_cons_self _ _
        · exact List.mem_cons_of_mem _ hy)))]

/-! ## The well-formedness invariant of reachable skip lists -/

/-- The length of node `x`'s forward array (its height). -/
def fwdLen (s : SkipList T) (x : Nat) : Nat :=
  match s.nodes[x]? with
  | none => 0
  | some nd => nd.forward.length

/-- Structural invariant maintained by `Insert`, from which every claimed
functional property follows. -/
structure Wf (lt : T → T → Bool) (s : SkipList T) : Prop where
  size_pos : 0 < s.nodes.length
  height_pos : 1 ≤ s.height
  height_le : s.height ≤ maxLevel
  head_fwd : fwdLen s 0 = maxLevel
  fwd_le : ∀ x, fwdLen s x ≤ maxLevel
  ptr_ok : ∀ x l j, nxt s x l = some j → 0 < j ∧ j < s.nodes.length
  sorted : ∀ l, List.Chain' (fun a b => lt (keyOf s a) (keyOf s b) = true) (chainAll s l)
  sub : ∀ l x, x ∈ chainAll s (l + 1) → x ∈ chainAll s l
  above : ∀ l, s.height ≤ l → nxt s 0 l = none
  in_chain_fwd : ∀ l x, x ∈ chainAll s l → l < fwdLen s x
  complete : ∀ l, nxt s ((chainAll s l).getLastD 0) l = none

variable {lt : T → T → Bool} {s : SkipList T}

theorem Wf.chain_mem_bounds (hwf : Wf lt s) {l x : Nat} (h : x ∈ chainAll s l) :
    0 < x ∧ x < s.nodes.length := by
  obtain ⟨y, hy⟩ := chainFrom_mem_nxt s l _ 0 x h
  exact hwf.ptr_ok y l x hy

theorem Wf.mem_chain_zero (hwf : Wf lt s) :
    ∀ (l : Nat) {x : Nat}, x ∈ chainAll s l → x ∈ chainAll s 0
  | 0, _, h => h
  | l + 1, x, h => hwf.mem_chain_zero l (hwf.sub l x h)

theorem Wf.pairwise (hwf : Wf lt s) (hswo : IsSWO lt) (l : Nat) :
    List.Pairwise (fun a b => lt (keyOf s a) (keyOf s b) = true) (chainAll s l) := by
  haveI : IsTrans Nat (fun a b => lt (keyOf s a) (keyOf s b) = true) :=
    ⟨fun a b c hab hbc => hswo.trans _ _ _ hab hbc⟩
  exact List.chain'_iff_pairwise.1 (hwf.sorted l)

theorem Wf.chain_nodup (hwf : Wf lt s) (hswo : IsSWO lt) (l : Nat) :
    (chainAll s l).Nodup := by
  refine (hwf.pairwise hswo l).imp ?_
  intro a b hab
  intro hEq
  subst hEq
  rw [hswo.irrefl] at hab
  exact absurd hab (by simp)

theorem Wf.chain_above (hwf : Wf lt s) {l : Nat} (hl : s.height ≤ l) :
    chainAll s l = [] := by
  unfold chainAll
  obtain ⟨f, hf⟩ : ∃ f, s.nodes.length = f + 1 :=
    ⟨s.nodes.length - 1, by have := hwf.size_pos; omega⟩
  rw [hf, chainFrom_succ_none f (hwf.above l hl)]

/-! ## Characterizing the descent -/

/-- The node where the level-`l` advance loop of a descent for predicate `p`
ends: the last node of the `p`-true prefix of the level-`l` chain (the head
sentinel when that prefix is empty). -/
def ustar (p : T → Bool) (s : SkipList T) (l : Nat) : Nat :=
  ((chainAll s l).takeWhile (fun j => p (keyOf s j))).getLastD 0

theorem advance_eq (p : T → Bool) (s : SkipList T) (l : Nat) :
    ∀ (f x : Nat), advance p s l f x =
      ((chainFrom s l f x).takeWhile (fun j => p (keyOf s j))).getLastD x
  | 0, x => rfl
  | f + 1, x => by
    cases hnxt : nxt s x l with
    | none =>
      rw [chainFrom_succ_none f hnxt]
      simp [advance, hnxt]
    | some j =>
      rw [chainFrom_succ_some f hnxt]
      simp only [advance, hnxt, List.takeWhile_cons]
      cases hp : p (keyOf s j) with
      | true =>
        simp only [hp, if_true, List.getLastD_cons]
        exact advance_eq p s l f j
      | false => simp [hp]

/-- Following the level-`l` chain from the `k`-th chain node yields the rest
of the chain. -/
theorem Wf.chain_drop (hwf : Wf lt s) (l k : Nat) (hk : k < (chainAll s l).length) :
    chainFrom s l s.nodes.length (chainAll s l)[k] = (chainAll s l).drop (k + 1) := by
  set C := chainAll s l with hC
  have hsplit : C = C.take (k + 1) ++ C.drop (k + 1) := (List.take_append_drop _ _).symm
  have hlenA : (C.take (k + 1)).length = k + 1 := by
    rw [List.length_take]
    omega
  have hlast : (C.take (k + 1)).getLastD 0 = C[k] := take_getLastD C k 0 hk
  have h1 := chainFrom_append s l (C.take (k + 1)) s.nodes.length 0 (C.drop (k + 1))
    (by rw [← hsplit]; rfl)
  rw [hlenA, hlast] at h1
  have hcomp : nxt s ((chainFrom s l (s.nodes.length - (k + 1)) C[k]).getLastD C[k]) l
      = none := by
    rw [h1]
    have : (C.drop (k + 1)).getLastD C[k] = C.getLastD 0 := by
      conv_rhs => rw [hsplit]
      rw [getLastD_append, hlast]
    rw [this]
    exact hwf.complete l
  have h2 := chainFrom_stable s l (s.nodes.length - (k + 1)) s.nodes.length C[k]
    (by omega) hcomp
  rw [h2, h1]

/-- The chain from the descent node `ustar p s l` is exactly the `p`-false
suffix of the level-`l` chain. -/
theorem Wf.chainFrom_ustar (hwf : Wf lt s) (p : T → Bool) (l : Nat) :
    chainFrom s l s.nodes.length (ustar p s l) =
      (chainAll s l).dropWhile (fun j => p (keyOf s j)) := by
  set q : Nat → Bool := fun j => p (keyOf s j) with hq
  set C := chainAll s l with hC
  have hpre : C.takeWhile q ++ C.dropWhile q = C := List.takeWhile_append_dropWhile q C
  cases htw : C.takeWhile q with
  | nil =>
    have hu0 : ustar p s l = 0 := by
      unfold ustar
      rw [← hq, ← hC, htw]
      rfl
    rw [hu0]
    have hdw : C.dropWhile q = C := by rw [htw] at hpre; simpa using hpre
    rw [hdw]
    rfl
  | cons t tws =>
    have hlen1 : 1 ≤ (C.takeWhile q).length := by rw [htw]; simp
    have hlenle : (C.takeWhile q).length ≤ C.length :=
      (List.takeWhile_sublist _).length_le
    set k := (C.takeWhile q).length - 1 with hk
    have hkC : k < C.length := by omega
    have hkk : k + 1 = (C.takeWhile q).length := by omega
    have h2 : C.take (k + 1) = C.takeWhile q := by
      conv_lhs => rw [← hpre]
      rw [hkk, List.take_left]
    have hgetk : C[k] = ustar p s l := by
      have h1 : (C.take (k + 1)).getLastD 0 = C[k] := take_getLastD C k 0 hkC
      rw [h2] at h1
      unfold ustar
      rw [← hq, ← hC, ← h1]
    have hdrop : C.drop (k + 1) = C.dropWhile q := by
      conv_lhs => rw [← hpre]
      rw [hkk, List.drop_left]
    rw [← hgetk, hwf.chain_drop l k hkC, hdrop]

/-- The successor of the descent node at level `l` is the head of the
`p`-false suffix of the level-`l` chain. -/
theorem Wf.nxt_ustar (hwf : Wf lt s) (p : T → Bool) (l : Nat) :
    nxt s (ustar p s l) l =
      ((chainAll s l).dropWhile (fun j => p (keyOf s j))).head? := by
  obtain ⟨f, hf⟩ : ∃ f, s.nodes.length = f + 1 :=
    ⟨s.nodes.length - 1, by have := hwf.size_pos; omega⟩
  rw [← hwf.chainFrom_ustar p l, hf]
  exact nxt_eq_head? s l f _

/-- Every node of the `p`-false suffix of a sorted chain fails `p`, provided
`p` is downward closed for `lt`. -/
theorem Wf.dropWhile_all_false (hwf : Wf lt s) (hswo : IsSWO lt)
    {p : T → Bool} (hdc : ∀ a b : T, lt a b = true → p b = true → p a = true)
    (l : Nat) : ∀ b ∈ (chainAll s l).dropWhile (fun j => p (keyOf s j)),
      p (keyOf s b) = false := by
  intro b hb
  set q : Nat → Bool := fun j => p (keyOf s j) with hq
  have hpw : List.Pairwise (fun a b => lt (keyOf s a) (keyOf s b) = true)
      ((chainAll s l).dropWhile q) :=
    (hwf.pairwise hswo l).sublist (List.dropWhile_sublist q)
  cases hdw : (chainAll s l).dropWhile q with
  | nil => rw [hdw] at hb; simp at hb
  | cons d rest =>
    have hd : q d = false := by
      have := List.head?_dropWhile_not q (chainAll s l)
      rw [hdw] at this
      exact this
    rw [hdw] at hb hpw
    rcases List.mem_cons.1 hb with rfl | hb'
    · simpa [hq] using hd
    · cases hpb : p (keyOf s b)
      · rfl
      · exfalso
        have hlt : lt (keyOf s d) (keyOf s b) = true :=
          (List.pairwise_cons.1 hpw).1 b hb'
        have hpd := hdc (keyOf s d) (keyOf s b) hlt hpb
        have hd2 : p (keyOf s d) = false := by simpa [hq] using hd
        rw [hpd] at hd2
        exact absurd hd2 (by simp)

/-- Every node of the `p`-true prefix of a chain satisfies `p`. -/
theorem takeWhile_all_true {p : T → Bool} {l : Nat} {b : Nat}
    (hb : b ∈ (chainAll s l).takeWhile (fun j => p (keyOf s j))) :
    p (keyOf s b) = true := by
  have h := List.mem_takeWhile_imp hb
  simpa using h

/-- One step of the descent: advancing at level `l` from the level-`(l+1)`
descent node reaches the level-`l` descent node. -/
theorem Wf.desc_step (hwf : Wf lt s) (hswo : IsSWO lt)
    {p : T → Bool} (hdc : ∀ a b : T, lt a b = true → p b = true → p a = true)
    (l : Nat) :
    advance p s l s.nodes.length (ustar p s (l + 1)) = ustar p s l := by
  set q : Nat → Bool := fun j => p (keyOf s j) with hq
  cases htw : (chainAll s (l + 1)).takeWhile q with
  | nil =>
    have hu : ustar p s (l + 1) = 0 := by unfold ustar; rw [← hq, htw]; rfl
    rw [hu, advance_eq]
    rfl
  | cons t tws =>
    set u := ustar p s (l + 1) with hu
    have humem : u ∈ (chainAll s (l + 1)).takeWhile q := by
      rw [htw]
      rw [hu]
      unfold ustar
      rw [← hq, htw]
      exact getLastD_mem (by simp) 0
    have hpu : q u = true := List.mem_takeWhile_imp humem
    have humem1 : u ∈ chainAll s (l + 1) :=
      (List.takeWhile_sublist q).mem humem
    have humem0 : u ∈ chainAll s l := hwf.sub l u humem1
    set C := chainAll s l with hC
    obtain ⟨k, hk, hCk⟩ := List.mem_iff_getElem.1 humem0
    have hallk : ∀ i, i ≤ k → q (C.getD i 0) = true := by
      intro i hi
      rcases Nat.lt_or_ge i k with hik | hik
      · have hik' : i < C.length := by omega
        have hlt : lt (keyOf s C[i]) (keyOf s C[k]) = true :=
          List.pairwise_iff_getElem.1 (hwf.pairwise hswo l) i k hik' hk hik
        rw [hCk] at hlt
        have := hdc (keyOf s C[i]) (keyOf s u) hlt hpu
        rw [List.getD_eq_getElem?_getD, List.getElem?_eq_getElem hik']
        exact this
      · have : i = k := by omega
        subst this
        rw [List.getD_eq_getElem?_getD, List.getElem?_eq_getElem hk, hCk]
        exact hpu
    have hsplit : C.takeWhile q = C.take (k + 1) ++ (C.drop (k + 1)).takeWhile q :=
      takeWhile_take_split q 0 C k hk hallk
    rw [advance_eq]
    rw [show chainFrom s l s.nodes.length u = C.drop (k + 1) by
      rw [← hCk]; exact hwf.chain_drop l k hk]
    unfold ustar
    rw [← hq, ← hC, hsplit, getLastD_append, take_getLastD C k 0 hk, hCk]

/-- The level of a node is at least ... (auxiliary): descent start.
At any level at or above the current height the chain is empty, so the
descent node is the head sentinel. -/
theorem Wf.ustar_above (hwf : Wf lt s) (p : T → Bool) {l : Nat}
    (hl : s.height ≤ l) : ustar p s l = 0 := by
  unfold ustar
  rw [hwf.chain_above hl]
  rfl

/-- The descent (the `updList` loop started at the head) computes exactly
the per-level descent nodes, in descending level order. -/
theorem Wf.updList_eq (hwf : Wf lt s) (hswo : IsSWO lt)
    {p : T → Bool} (hdc : ∀ a b : T, lt a b = true → p b = true → p a = true) :
    ∀ l : Nat, updList p s s.nodes.length (ustar p s (l + 1)) l =
      ((List.range (l + 1)).map (ustar p s)).reverse := by
  intro l
  induction l with
  | zero =>
    simp only [updList]
    rw [hwf.desc_step hswo hdc 0]
    conv_rhs => rw [List.range_succ]
    simp
  | succ l ih =>
    simp only [updList]
    rw [hwf.desc_step hswo hdc (l + 1), ih]
    conv_rhs => rw [List.range_succ]
    simp

/-- The descent of the source search functions starts at the head at level
`height - 1`; since chains at and above `height` are empty, that start is
itself a descent node, so the whole `update` table is `ustar`. -/
theorem Wf.updList_full (hwf : Wf lt s) (hswo : IsSWO lt)
    {p : T → Bool} (hdc : ∀ a b : T, lt a b = true → p b = true → p a = true) :
    updList p s s.nodes.length 0 (s.height - 1) =
      ((List.range s.height).map (ustar p s)).reverse := by
  have h0 : (0 : Nat) = ustar p s ((s.height - 1) + 1) := by
    rw [hwf.ustar_above p (by omega)]
  have hh : (s.height - 1) + 1 = s.height := by
    have := hwf.height_pos
    omega
  conv_lhs => rw [h0]
  rw [hwf.updList_eq hswo hdc (s.height - 1), hh]

/-- Reading the `update` table at any index yields the descent node of that
level (indices at or above the height default to the head, matching
`update[i] = head_` for raised levels). -/
theorem Wf.us_getD (hwf : Wf lt s) (hswo : IsSWO lt)
    {p : T → Bool} (hdc : ∀ a b : T, lt a b = true → p b = true → p a = true)
    (i : Nat) :
    ((updList p s s.nodes.length 0 (s.height - 1)).reverse).getD i 0 = ustar p s i := by
  rw [hwf.updList_full hswo hdc, List.reverse_reverse]
  rcases Nat.lt_or_ge i s.height with hi | hi
  · rw [List.getD_eq_getElem?_getD, List.getElem?_map, List.getElem?_range hi]
    rfl
  · rw [List.getD_eq_getElem?_getD, List.getElem?_eq_none (by simp; omega)]
    rw [hwf.ustar_above p hi]
    rfl

/-- The last entry of the raw `update` list is the level-0 descent node. -/
theorem Wf.updList_getLastD (hwf : Wf lt s) (hswo : IsSWO lt)
    {p : T → Bool} (hdc : ∀ a b : T, lt a b = true → p b = true → p a = true) :
    (updList p s s.nodes.length 0 (s.height - 1)).getLastD 0 = ustar p s 0 := by
  rw [hwf.updList_full hswo hdc]
  obtain ⟨h, hh⟩ : ∃ h, s.height = h + 1 := ⟨s.height - 1, by have := hwf.height_pos; omega⟩
  rw [hh, List.range_succ_eq_map]
  simp

/-- The level-`l` descent node is the head or a chain node. -/
theorem ustar_cases (p : T → Bool) (s : SkipList T) (l : Nat) :
    ustar p s l = 0 ∨ ustar p s l ∈ chainAll s l := by
  unfold ustar
  cases htw : (chainAll s l).takeWhile (fun j => p (keyOf s j)) with
  | nil => exact Or.inl rfl
  | cons t tws =>
    refine Or.inr (List.Sublist.mem ?_ (List.takeWhile_sublist (fun j => p (keyOf s j))))
    rw [htw]
    exact getLastD_mem (by simp) 0

theorem Wf.ustar_lt_len (hwf : Wf lt s) (p : T → Bool) (l : Nat) :
    ustar p s l < s.nodes.length := by
  rcases ustar_cases p s l with h | h
  · rw [h]; exact hwf.size_pos
  · exact (hwf.chain_mem_bounds h).2

theorem Wf.ustar_fwd (hwf : Wf lt s) (p : T → Bool) {l : Nat} (hl : l < maxLevel) :
    l < fwdLen s (ustar p s l) := by
  rcases ustar_cases p s l with h | h
  · rw [h, hwf.head_fwd]; exact hl
  · exact hwf.in_chain_fwd l _ h

/-- The chain cannot fill the whole node store (the head is not on it and
its members are distinct valid indices). -/
theorem Wf.chain_len_lt (hwf : Wf lt s) (hswo : IsSWO lt) (l : Nat) :
    (chainAll s l).length < s.nodes.length := by
  have hnd := hwf.chain_nodup hswo l
  have hsub : chainAll s l ⊆ List.range' 1 (s.nodes.length - 1) := by
    intro y hy
    have := hwf.chain_mem_bounds hy
    have hsz := hwf.size_pos
    rw [List.mem_range'_1]
    omega
  have := (hnd.subperm hsub).length_le
  rw [List.length_range'] at this
  have := hwf.size_pos
  omega

/-! ## Pointwise effect of `insertNew` on the node store -/

theorem setFwd_length (nds : List (SLNode T)) (u i n : Nat) :
    (setFwd nds u i n).length = nds.length := by
  unfold setFwd
  cases nds[u]? <;> simp

theorem setFwd_key (nds : List (SLNode T)) (u i n x : Nat) :
    (setFwd nds u i n)[x]?.map SLNode.key = nds[x]?.map SLNode.key := by
  simp only [setFwd]
  cases hu : nds[u]? with
  | none => rfl
  | some nd =>
    have hul : u < nds.length := (List.getElem?_eq_some.1 hu).1
    rcases eq_or_ne u x with h | hne
    · subst h
      rw [List.getElem?_set_self hul, hu]
      rfl
    · rw [List.getElem?_set_ne hne]

theorem setFwd_fwdLen (nds : List (SLNode T)) (u i n x : Nat) :
    (setFwd nds u i n)[x]?.map (fun nd => nd.forward.length) =
      nds[x]?.map (fun nd => nd.forward.length) := by
  simp only [setFwd]
  cases hu : nds[u]? with
  | none => rfl
  | some nd =>
    have hul : u < nds.length := (List.getElem?_eq_some.1 hu).1
    rcases eq_or_ne u x with h | hne
    · subst h
      rw [List.getElem?_set_self hul, hu]
      simp
    · rw [List.getElem?_set_ne hne]

theorem setFwd_nxt_same {nds : List (SLNode T)} {u i : Nat} (n : Nat) (ht : Nat)
    {nd : SLNode T} (hnd : nds[u]? = some nd) (hi : i < nd.forward.length) :
    nxt ⟨setFwd nds u i n, ht⟩ u i = some n := by
  have hul : u < nds.length := (List.getElem?_eq_some.1 hnd).1
  simp only [nxt, setFwd, hnd]
  rw [List.getElem?_set_self hul]
  simp only
  rw [List.getElem?_set_self hi]

theorem nxt_oob {s : SkipList T} {x : Nat} (hx : s.nodes.length ≤ x) (l : Nat) :
    nxt s x l = none := by
  simp only [nxt]
  rw [List.getElem?_eq_none hx]

theorem setFwd_nxt_other {nds : List (SLNode T)} {u i x j : Nat} (n : Nat) (ht : Nat)
    (h : x ≠ u ∨ j ≠ i) :
    nxt ⟨setFwd nds u i n, ht⟩ x j = nxt ⟨nds, ht⟩ x j := by
  simp only [nxt, setFwd]
  cases hu : nds[u]? with
  | none => rfl
  | some nd =>
    have hul : u < nds.length := (List.getElem?_eq_some.1 hu).1
    simp only
    rcases eq_or_ne u x with heq | hne
    · subst heq
      rcases h with h | h
      · exact absurd rfl h
      · rw [List.getElem?_set_self hul, hu]
        simp only
        rw [List.getElem?_set_ne (Ne.symm h)]
    · rw [List.getElem?_set_ne hne]

theorem linkAll_length (nds : List (SLNode T)) (us : List Nat) (n : Nat) :
    ∀ m : Nat, (linkAll nds us n m).length = nds.length
  | 0 => rfl
  | m + 1 => by
    simp only [linkAll]
    rw [setFwd_length, linkAll_length nds us n m]

theorem linkAll_key (nds : List (SLNode T)) (us : List Nat) (n : Nat) :
    ∀ (m x : Nat), (linkAll nds us n m)[x]?.map SLNode.key = nds[x]?.map SLNode.key
  | 0, _ => rfl
  | m + 1, x => by
    simp only [linkAll]
    rw [setFwd_key, linkAll_key nds us n m x]

theorem linkAll_fwdLen (nds : List (SLNode T)) (us : List Nat) (n : Nat) :
    ∀ (m x : Nat), (linkAll nds us n m)[x]?.map (fun nd => nd.forward.length) =
      nds[x]?.map (fun nd => nd.forward.length)
  | 0, _ => rfl
  | m + 1, x => by
    simp only [linkAll]
    rw [setFwd_fwdLen, linkAll_fwdLen nds us n m x]

/-- Characterization of the linking loop: after linking levels `0..m-1`,
the slot at `(update j, j)` for `j < m` holds the new node, and every other
slot is unchanged. -/
theorem linkAll_nxt (nds : List (SLNode T)) (us : List Nat) (n ht lvl : Nat)
    (hval : ∀ i, i < lvl → ∃ nd, nds[us.getD i 0]? = some nd ∧ i < nd.forward.length) :
    ∀ m, m ≤ lvl → ∀ x j,
      nxt ⟨linkAll nds us n m, ht⟩ x j =
        if j < m ∧ x = us.getD j 0 then some n else nxt ⟨nds, ht⟩ x j := by
  intro m
  induction m with
  | zero =>
    intro _ x j
    rw [if_neg (by omega)]
    rfl
  | succ m ih =>
    intro hm x j
    simp only [linkAll]
    rcases Classical.em (x = us.getD m 0 ∧ j = m) with ⟨hx, hj⟩ | hother
    · obtain ⟨nd, hnd, hfl⟩ := hval m (by omega)
      obtain ⟨nd2, hnd2, hfl2⟩ :
          ∃ nd2, (linkAll nds us n m)[us.getD m 0]? = some nd2 ∧
            nd2.forward.length = nd.forward.length := by
        have hfw := linkAll_fwdLen nds us n m (us.getD m 0)
        rw [hnd] at hfw
        rcases hl : (linkAll nds us n m)[us.getD m 0]? with _ | nd2
        · rw [hl] at hfw; simp at hfw
        · rw [hl] at hfw
          simp only [Option.map_some'] at hfw
          exact ⟨nd2, rfl, by simpa using hfw⟩
      rw [hx, hj]
      rw [setFwd_nxt_same n ht hnd2 (by rw [hfl2]; exact hfl)]
      rw [if_pos ⟨by omega, rfl⟩]
    · have hother2 : x ≠ us.getD m 0 ∨ j ≠ m := by
        rcases Classical.em (x = us.getD m 0) with h1 | h1
        · exact Or.inr (fun h2 => hother ⟨h1, h2⟩)
        · exact Or.inl h1
      rw [setFwd_nxt_other n ht hother2, ih (by omega) x j]
      rcases Classical.em (j < m ∧ x = us.getD j 0) with hc | hc
      · rw [if_pos hc, if_pos ⟨by omega, hc.2⟩]
      · rw [if_neg hc, if_neg (by
          rintro ⟨hj1, hj2⟩
          rcases Nat.lt_or_ge j m with hjm | hjm
          · exact hc ⟨hjm, hj2⟩
          · have hjem : j = m := by omega
            subst hjem
            exact hother ⟨hj2, rfl⟩)]

theorem nxt_append_lt {nds : List (SLNode T)} {x : Nat} (L : List (SLNode T)) (ht ht2 : Nat)
    (hx : x < nds.length) (l : Nat) :
    nxt ⟨nds ++ L, ht⟩ x l = nxt ⟨nds, ht2⟩ x l := by
  simp only [nxt]
  rw [List.getElem?_append, if_pos hx]

theorem nxt_append_self (nds : List (SLNode T)) (nd : SLNode T) (ht : Nat) (l : Nat) :
    nxt ⟨nds ++ [nd], ht⟩ nds.length l =
      match nd.forward[l]? with
      | none => none
      | some o => o := by
  simp only [nxt]
  rw [List.getElem?_append, if_neg (by omega)]
  simp

theorem randomLevelAux_ge : ∀ (ds : List Nat) (h : Nat), h ≤ randomLevelAux h ds
  | [], _ => Nat.le_refl _
  | d :: ds, h => by
    simp only [randomLevelAux]
    split
    · exact Nat.le_trans (Nat.le_succ h) (randomLevelAux_ge ds (h + 1))
    · exact Nat.le_refl _

theorem randomLevelAux_le : ∀ (ds : List Nat) (h : Nat), h ≤ maxLevel →
    randomLevelAux h ds ≤ maxLevel
  | [], _, hh => hh
  | d :: ds, h, hh => by
    simp only [randomLevelAux]
    split
    · refine randomLevelAux_le ds (h + 1) ?_
      rename_i hcond
      simp only [Bool.and_eq_true, decide_eq_true_eq] at hcond
      omega
    · exact hh

theorem randomLevel_pos (ds : List Nat) : 1 ≤ randomLevel ds := randomLevelAux_ge ds 1

theorem randomLevel_le (ds : List Nat) : randomLevel ds ≤ maxLevel :=
  randomLevelAux_le ds 1 (by simp [maxLevel])

/-! ## The state built by `insertNew` -/

theorem insertNew_fst (s : SkipList T) (k : T) (draws : List Nat) (us : List Nat) :
    (insertNew s k draws us).1 =
      ⟨linkAll (s.nodes ++ [⟨k, (List.range (randomLevel draws)).map
          fun i => nxt s (us.getD i 0) i⟩]) us s.nodes.length (randomLevel draws),
        max s.height (randomLevel draws)⟩ := rfl

theorem insertNew_length (s : SkipList T) (k : T) (draws : List Nat) (us : List Nat) :
    (insertNew s k draws us).1.nodes.length = s.nodes.length + 1 := by
  rw [insertNew_fst]
  simp only
  rw [linkAll_length]
  simp

theorem insertNew_height (s : SkipList T) (k : T) (draws : List Nat) (us : List Nat) :
    (insertNew s k draws us).1.height = max s.height (randomLevel draws) := rfl

/-- Where every pointer of the post-insert state goes. -/
theorem insertNew_nxt (hwf : Wf lt s) {p : T → Bool} {us : List Nat}
    (hus : ∀ i, us.getD i 0 = ustar p s i) (k : T) (draws : List Nat) (x j : Nat) :
    nxt (insertNew s k draws us).1 x j =
      if x = s.nodes.length then
        (if j < randomLevel draws then nxt s (ustar p s j) j else none)
      else if j < randomLevel draws ∧ x = ustar p s j then some s.nodes.length
      else nxt s x j := by
  set lvl := randomLevel draws with hlvl
  set n := s.nodes.length with hn
  set newFwd : List (Option Nat) := (List.range lvl).map (fun i => nxt s (us.getD i 0) i)
    with hnf
  set nodes1 := s.nodes ++ [⟨k, newFwd⟩] with hn1
  have hval : ∀ i, i < lvl → ∃ nd, nodes1[us.getD i 0]? = some nd ∧
      i < nd.forward.length := by
    intro i hi
    have hui : us.getD i 0 = ustar p s i := hus i
    have hultl : ustar p s i < s.nodes.length := hwf.ustar_lt_len p i
    have hifwd : i < fwdLen s (ustar p s i) :=
      hwf.ustar_fwd p (by have := randomLevel_le draws; omega)
    obtain ⟨nd, hnd⟩ : ∃ nd, s.nodes[ustar p s i]? = some nd :=
      ⟨s.nodes[ustar p s i], List.getElem?_eq_getElem hultl⟩
    refine ⟨nd, ?_, ?_⟩
    · rw [hui, hn1, List.getElem?_append, if_pos hultl, hnd]
    · unfold fwdLen at hifwd
      rw [hnd] at hifwd
      exact hifwd
  have hchar := linkAll_nxt nodes1 us n (max s.height lvl) lvl hval lvl (Nat.le_refl _) x j
  rw [insertNew_fst]
  simp only [← hlvl, ← hn, ← hnf, ← hn1]
  rw [hchar]
  rcases Classical.em (x = n) with rfl | hxn
  · have hnus : ∀ i, i < lvl → ¬ (n = us.getD i 0) := by
      intro i hi hcontra
      have := hwf.ustar_lt_len p i
      rw [hus i] at hcontra
      omega
    rw [if_neg (by rintro ⟨h1, h2⟩; exact hnus j h1 h2), if_pos rfl]
    have hself := nxt_append_self s.nodes ⟨k, newFwd⟩ (max s.height lvl) j
    rw [← hn1] at hself
    rw [hself]
    rcases Nat.lt_or_ge j lvl with hj | hj
    · rw [if_pos hj]
      rw [hnf]
      simp only
      rw [List.getElem?_map, List.getElem?_range hj]
      simp only [Option.map_some']
      rw [hus j]
    · rw [if_neg (by omega)]
      rw [hnf]
      simp only
      rw [List.getElem?_eq_none (by simp; omega)]
  · rw [if_neg hxn]
    rcases Classical.em (j < lvl ∧ x = ustar p s j) with hc | hc
    · rw [if_pos (by rw [hus j]; exact ⟨hc.1, hc.2⟩), if_pos hc]
    · rw [if_neg (by rw [hus j]; exact hc), if_neg hc]
      rcases Nat.lt_or_ge x s.nodes.length with hx | hx
      · exact nxt_append_lt [⟨k, newFwd⟩] _ s.height hx j
      · have hx1 : nodes1.length ≤ x := by
          rw [hn1]
          simp only [List.length_append, List.length_cons, List.length_nil]
          omega
        rw [nxt_oob (s := ⟨nodes1, max s.height lvl⟩) hx1 j,
          nxt_oob (by omega) j]

theorem keyOf_eq (s : SkipList T) (x : Nat) :
    keyOf s x = (s.nodes[x]?.map SLNode.key).getD default := by
  unfold keyOf
  cases s.nodes[x]? <;> rfl

theorem fwdLen_eq (s : SkipList T) (x : Nat) :
    fwdLen s x = (s.nodes[x]?.map (fun nd => nd.forward.length)).getD 0 := by
  unfold fwdLen
  cases s.nodes[x]? <;> rfl

theorem insertNew_keyOf (s : SkipList T) (k : T) (draws : List Nat) (us : List Nat)
    (x : Nat) :
    keyOf (insertNew s k draws us).1 x =
      if x = s.nodes.length then k else keyOf s x := by
  rw [insertNew_fst, keyOf_eq, keyOf_eq]
  simp only
  rw [linkAll_key, List.getElem?_append]
  rcases Nat.lt_trichotomy x s.nodes.length with hx | hx | hx
  · rw [if_pos hx, if_neg (by omega)]
  · subst hx
    rw [if_neg (by omega), if_pos rfl]
    simp
  · rw [if_neg (by omega), if_neg (by omega)]
    rw [List.getElem?_eq_none (by simp; omega), List.getElem?_eq_none (by omega)]

theorem insertNew_fwdLen (s : SkipList T) (k : T) (draws : List Nat) (us : List Nat)
    (x : Nat) :
    fwdLen (insertNew s k draws us).1 x =
      if x = s.nodes.length then randomLevel draws else fwdLen s x := by
  rw [insertNew_fst, fwdLen_eq, fwdLen_eq]
  simp only
  rw [linkAll_fwdLen, List.getElem?_append]
  rcases Nat.lt_trichotomy x s.nodes.length with hx | hx | hx
  · rw [if_pos hx, if_neg (by omega)]
  · subst hx
    rw [if_neg (by omega), if_pos rfl]
    simp
  · rw [if_neg (by omega), if_neg (by omega)]
    rw [List.getElem?_eq_none (by simp; omega), List.getElem?_eq_none (by omega)]

/-! ## Splicing the new node into every chain -/

theorem mem_dropLast_ne : ∀ (L : List Nat) (d y : Nat), (d :: L).Nodup →
    y ∈ (d :: L).dropLast → y ≠ L.getLastD d
  | [], d, y, _, hy => by simp at hy
  | e :: L2, d, y, hnd, hy => by
    rw [List.getLastD_cons]
    have hy2 : y = d ∨ y ∈ (e :: L2).dropLast := by
      rw [List.dropLast_cons_of_ne_nil (by simp)] at hy
      exact List.mem_cons.1 hy
    rcases hy2 with rfl | hy2
    · intro hcontra
      have hmem : (e :: L2).getLastD 0 ∈ e :: L2 := getLastD_mem (by simp) 0
      rw [List.getLastD_cons] at hmem
      rw [← hcontra] at hmem
      exact (List.nodup_cons.1 hnd).1 hmem
    · exact mem_dropLast_ne L2 e y (List.nodup_cons.1 hnd).2 hy2

/-- Walking the rewritten list along an unmodified prefix of the old chain. -/
theorem chainFrom_prefix_walk (s s2 : SkipList T) (l : Nat) :
    ∀ (A : List Nat) (f x f2 : Nat) (B : List Nat),
    chainFrom s l f x = A ++ B →
    (∀ y, y ∈ (x :: A).dropLast → nxt s2 y l = nxt s y l) →
    A.length ≤ f2 →
    chainFrom s2 l f2 x = A ++ chainFrom s2 l (f2 - A.length) (A.getLastD x)
  | [], f, x, f2, B, _, _, _ => by simp
  | a :: A2, f, x, f2, B, h, hmod, hf2 => by
    obtain ⟨f0, rfl⟩ : ∃ f0, f = f0 + 1 := by
      cases f with
      | zero => simp [chainFrom] at h
      | succ f0 => exact ⟨f0, rfl⟩
    rw [chainFrom_succ] at h
    cases hnxt : nxt s x l with
    | none => rw [hnxt] at h; simp at h
    | some a2 =>
      rw [hnxt, List.cons_append] at h
      obtain ⟨ha, h2⟩ := List.cons_eq_cons.1 h
      rw [ha] at hnxt h2
      obtain ⟨f3, rfl⟩ : ∃ f3, f2 = f3 + 1 := by
        refine ⟨f2 - 1, ?_⟩
        have : 1 ≤ f2 := by
          have := hf2
          simp at this
          omega
        omega
      have hx : nxt s2 x l = nxt s x l := by
        refine hmod x ?_
        rw [List.dropLast_cons_of_ne_nil (by simp)]
        exact List.mem_cons_self _ _
      rw [chainFrom_succ_some f3 (hx.trans hnxt)]
      have hrec := chainFrom_prefix_walk s s2 l A2 f0 a f3 B h2
        (fun y hy => hmod y (by
          rw [List.dropLast_cons_of_ne_nil (by simp)]
          exact List.mem_cons_of_mem _ hy)) (by simp at hf2; omega)
      rw [hrec, List.getLastD_cons]
      simp only [List.cons_append, List.length_cons]
      have harith : f3 + 1 - (A2.length + 1) = f3 - A2.length := by omega
      rw [harith]

/-- The rewritten state's chain: old prefix, then the new node, then the old
suffix. -/
theorem chain_splice (s s2 : SkipList T) (l u n : Nat) (A B : List Nat)
    (hchain : chainAll s l = A ++ B)
    (hlast : A.getLastD 0 = u)
    (hmodA : ∀ y, y ∈ (0 :: A).dropLast → nxt s2 y l = nxt s y l)
    (hmodB : ∀ y, y ∈ B → nxt s2 y l = nxt s y l)
    (hu : nxt s2 u l = some n)
    (hn : nxt s2 n l = nxt s u l)
    (hcomp : nxt s ((chainAll s l).getLastD 0) l = none)
    (hlen : A.length + B.length < s.nodes.length) :
    chainFrom s2 l (s.nodes.length + 1) 0 = A ++ n :: B := by
  set len := s.nodes.length with hlendef
  have hwalk := chainFrom_prefix_walk s s2 l A len 0 (len + 1) B
    (by rw [← hchain]; rfl) hmodA (by omega)
  rw [hwalk, hlast]
  have hAlen : A.length ≤ len := by omega
  have hf1 : len + 1 - A.length = (len - A.length - 1) + 1 + 1 := by omega
  have hold : chainFrom s l (len - A.length) u = B := by
    have := chainFrom_append s l A len 0 B (by rw [← hchain]; rfl)
    rw [hlast] at this
    exact this
  rw [hf1, chainFrom_succ_some _ hu]
  congr 1
  obtain ⟨g, hg⟩ : ∃ g, len - A.length = g + 1 := ⟨len - A.length - 1, by omega⟩
  cases hnxt : nxt s u l with
  | none =>
    rw [hg, chainFrom_succ_none g hnxt] at hold
    rw [chainFrom_succ_none _ (hn.trans hnxt), ← hold]
  | some b2 =>
    rw [hg, chainFrom_succ_some g hnxt] at hold
    rw [← hold]
    have hfuel : len - A.length - 1 = g := by omega
    rw [hfuel, chainFrom_succ_some g (hn.trans hnxt)]
    rw [chainFrom_congr s s2 l g b2 (fun y hy => hmodB y (by
      rw [← hold]
      rcases hy with rfl | hy
      · exact List.mem_cons_self _ _
      · exact List.mem_cons_of_mem _ hy))]

/-- The chains of the post-insert state: at linked levels the new node sits
between the `p`-true prefix and the `p`-false suffix; the other levels are
untouched. -/
theorem insertNew_chainAll (hwf : Wf lt s) (hswo : IsSWO lt)
    {p : T → Bool} (hdc : ∀ a b : T, lt a b = true → p b = true → p a = true)
    {us : List Nat} (hus : ∀ i, us.getD i 0 = ustar p s i)
    (k : T) (draws : List Nat) (i : Nat) :
    chainAll (insertNew s k draws us).1 i =
      if i < randomLevel draws then
        (chainAll s i).takeWhile (fun j => p (keyOf s j)) ++
          s.nodes.length :: (chainAll s i).dropWhile (fun j => p (keyOf s j))
      else chainAll s i := by
  set lvl := randomLevel draws with hlvl
  set n := s.nodes.length with hn
  set A := (chainAll s i).takeWhile (fun j => p (keyOf s j)) with hA
  set B := (chainAll s i).dropWhile (fun j => p (keyOf s j)) with hB
  have hsplit : chainAll s i = A ++ B :=
    (List.takeWhile_append_dropWhile (fun j => p (keyOf s j)) (chainAll s i)).symm
  have hchar := insertNew_nxt hwf hus k draws
  have hs2len : (insertNew s k draws us).1.nodes.length = n + 1 :=
    insertNew_length s k draws us
  have hch2 : chainAll (insertNew s k draws us).1 i =
      chainFrom (insertNew s k draws us).1 i (n + 1) 0 := by
    unfold chainAll
    rw [hs2len]
  have hAmem : ∀ y, y ∈ A → y ∈ chainAll s i := fun y hy =>
    (List.takeWhile_sublist _).mem (hA ▸ hy)
  have hBmem : ∀ y, y ∈ B → y ∈ chainAll s i := fun y hy =>
    (List.dropWhile_sublist _).mem (hB ▸ hy)
  have hndAB : (A ++ B).Nodup := hsplit ▸ hwf.chain_nodup hswo i
  rcases Nat.lt_or_ge i lvl with hi | hi
  · rw [if_pos hi, hch2]
    refine chain_splice s _ i (ustar p s i) n A B hsplit rfl ?_ ?_ ?_ ?_
      (hwf.complete i) ?_
    · intro y hy
      have hyA : y = 0 ∨ y ∈ A := by
        have := (List.dropLast_sublist (0 :: A)).mem hy
        exact List.mem_cons.1 this
      have hyne_n : y ≠ n := by
        rcases hyA with rfl | hyA
        · have := hwf.size_pos
          omega
        · have := (hwf.chain_mem_bounds (hAmem y hyA)).2
          omega
      have hyne_u : y ≠ ustar p s i := by
        have hnd0A : (0 :: A).Nodup := by
          rw [List.nodup_cons]
          refine ⟨fun h0 => ?_, (List.nodup_append.1 hndAB).1⟩
          have := (hwf.chain_mem_bounds (hAmem 0 h0)).1
          omega
        have := mem_dropLast_ne A 0 y hnd0A hy
        unfold ustar
        rw [← hA]
        exact this
      rw [hchar y i, if_neg hyne_n, if_neg (by rintro ⟨h1, h2⟩; exact hyne_u h2)]
    · intro y hy
      have hyne_n : y ≠ n := by
        have := (hwf.chain_mem_bounds (hBmem y hy)).2
        omega
      have hyne_u : y ≠ ustar p s i := by
        rcases ustar_cases p s i with hcase | hcase
        · have := (hwf.chain_mem_bounds (hBmem y hy)).1
          omega
        · rw [hsplit] at hcase
          rcases List.mem_append.1 hcase with hcaseA | hcaseB
          · intro hcontra
            exact (List.nodup_append.1 hndAB).2.2 hcaseA (hcontra ▸ hy)
          · intro hcontra
            have husA : ustar p s i ∈ A ∨ ustar p s i = 0 := by
              unfold ustar
              rw [← hA]
              cases hAc : A with
              | nil => exact Or.inr rfl
              | cons a A2 =>
                refine Or.inl ?_
                exact getLastD_mem (by simp) 0
            rcases husA with husA | husA
            · exact (List.nodup_append.1 hndAB).2.2 husA (hcontra ▸ hy)
            · have := (hwf.chain_mem_bounds (hBmem y hy)).1
              omega
      rw [hchar y i, if_neg hyne_n, if_neg (by rintro ⟨h1, h2⟩; exact hyne_u h2)]
    · rw [hchar (ustar p s i) i,
        if_neg (by have := hwf.ustar_lt_len p i; omega), if_pos ⟨hi, rfl⟩]
    · rw [hchar n i, if_pos rfl, if_pos hi]
    · have h1 := hwf.chain_len_lt hswo i
      rw [hsplit, List.length_append] at h1
      exact h1
  · rw [if_neg (by omega), hch2]
    have hcongr : chainFrom (insertNew s k draws us).1 i s.nodes.length 0 =
        chainFrom s i s.nodes.length 0 := by
      refine chainFrom_congr s _ i s.nodes.length 0 ?_
      intro y hy
      have hyne_n : y ≠ n := by
        rcases hy with rfl | hy
        · have := hwf.size_pos
          omega
        · have := (hwf.chain_mem_bounds (l := i) hy).2
          omega
      rw [hchar y i, if_neg hyne_n, if_neg (by rintro ⟨h1, h2⟩; omega)]
    have hstab : chainFrom (insertNew s k draws us).1 i (n + 1) 0 =
        chainFrom (insertNew s k draws us).1 i s.nodes.length 0 := by
      refine chainFrom_stable _ i s.nodes.length (n + 1) 0 (by omega) ?_
      rw [hcongr]
      set z := (chainFrom s i s.nodes.length 0).getLastD 0 with hz
      have hzc : nxt s z i = none := hwf.complete i
      have hzne : z ≠ n := by
        rcases Classical.em (chainFrom s i s.nodes.length 0 = []) with hc | hc
        · rw [hz, hc]
          have := hwf.size_pos
          simp only [List.getLastD_nil]
          omega
        · have hzmem : z ∈ chainAll s i := by
            rw [hz]
            exact getLastD_mem hc 0
          have := (hwf.chain_mem_bounds hzmem).2
          omega
      rw [hchar z i, if_neg hzne, if_neg (by rintro ⟨h1, h2⟩; omega)]
      exact hzc
    rw [hstab, hcongr]
    rfl

/-! ## `Insert` preserves the invariant and performs a sorted insertion -/

theorem memA_down (hwf : Wf lt s) (hswo : IsSWO lt) {p : T → Bool}
    (hdc : ∀ a b : T, lt a b = true → p b = true → p a = true) (i : Nat) {y : Nat}
    (hy : y ∈ (chainAll s (i + 1)).takeWhile (fun j => p (keyOf s j))) :
    y ∈ (chainAll s i).takeWhile (fun j => p (keyOf s j)) := by
  have hq : p (keyOf s y) = true := takeWhile_all_true hy
  have hmem : y ∈ chainAll s i :=
    hwf.sub i y ((List.takeWhile_sublist _).mem hy)
  rw [← List.takeWhile_append_dropWhile (fun j => p (keyOf s j)) (chainAll s i)]
    at hmem
  rcases List.mem_append.1 hmem with h | h
  · exact h
  · have := hwf.dropWhile_all_false hswo hdc i y h
    rw [hq] at this
    exact absurd this (by simp)

theorem memB_down (hwf : Wf lt s) (hswo : IsSWO lt) {p : T → Bool}
    (hdc : ∀ a b : T, lt a b = true → p b = true → p a = true) (i : Nat) {y : Nat}
    (hy : y ∈ (chainAll s (i + 1)).dropWhile (fun j => p (keyOf s j))) :
    y ∈ (chainAll s i).dropWhile (fun j => p (keyOf s j)) := by
  have hq : p (keyOf s y) = false := hwf.dropWhile_all_false hswo hdc (i + 1) y hy
  have hmem : y ∈ chainAll s i :=
    hwf.sub i y ((List.dropWhile_sublist _).mem hy)
  rw [← List.takeWhile_append_dropWhile (fun j => p (keyOf s j)) (chainAll s i)]
    at hmem
  rcases List.mem_append.1 hmem with h | h
  · have := takeWhile_all_true h
    rw [hq] at this
    exact absurd this (by simp)
  · exact h

theorem memB_zero (hwf : Wf lt s) (hswo : IsSWO lt) {p : T → Bool}
    (hdc : ∀ a b : T, lt a b = true → p b = true → p a = true) :
    ∀ (i : Nat) {y : Nat}, y ∈ (chainAll s i).dropWhile (fun j => p (keyOf s j)) →
    y ∈ (chainAll s 0).dropWhile (fun j => p (keyOf s j))
  | 0, _, hy => hy
  | i + 1, y, hy => memB_zero hwf hswo hdc i (memB_down hwf hswo hdc i hy)

/-- If the duplicate check failed, the inserted key is strictly below every
node of the `p`-false suffix of the bottom chain. -/
theorem gt_of_dup_fail (hwf : Wf lt s) (hswo : IsSWO lt) {k : T}
    (hne : ∀ b, ((chainAll s 0).dropWhile (fun j => lt (keyOf s j) k)).head? = some b →
      keyEq lt k (keyOf s b) = false) :
    ∀ b ∈ (chainAll s 0).dropWhile (fun j => lt (keyOf s j) k),
      lt k (keyOf s b) = true := by
  intro b hb
  cases hdw : (chainAll s 0).dropWhile (fun j => lt (keyOf s j) k) with
  | nil => rw [hdw] at hb; simp at hb
  | cons b0 rest =>
    have hb0lt : lt (keyOf s b0) k = false := by
      have := List.head?_dropWhile_not (fun j => lt (keyOf s j) k) (chainAll s 0)
      rw [hdw] at this
      simpa using this
    have hb0gt : lt k (keyOf s b0) = true := by
      have := hne b0 (by rw [hdw]; rfl)
      unfold keyEq at this
      rw [hb0lt] at this
      simpa using this
    have hpw : List.Pairwise (fun a b => lt (keyOf s a) (keyOf s b) = true)
        (b0 :: rest) := by
      rw [← hdw]
      exact (hwf.pairwise hswo 0).sublist (List.dropWhile_sublist _)
    rw [hdw] at hb
    rcases List.mem_cons.1 hb with rfl | hb2
    · exact hb0gt
    · exact hswo.trans _ _ _ hb0gt ((List.pairwise_cons.1 hpw).1 b hb2)

/-- After a successful `insertNew` the invariant still holds. -/
theorem insertNew_wf (hwf : Wf lt s) (hswo : IsSWO lt) {k : T}
    (hgt : ∀ b ∈ (chainAll s 0).dropWhile (fun j => lt (keyOf s j) k),
      lt k (keyOf s b) = true)
    (draws : List Nat) :
    Wf lt (insertNew s k draws
      ((updList (fun a => lt a k) s s.nodes.length 0 (s.height - 1)).reverse)).1 := by
  set pK : T → Bool := fun a => lt a k with hpK
  have hdcK : ∀ a b : T, lt a b = true → pK b = true → pK a = true :=
    fun a b hab hbk => hswo.trans a b k hab hbk
  set usI := (updList pK s s.nodes.length 0 (s.height - 1)).reverse with husIdef
  have husK : ∀ i, usI.getD i 0 = ustar pK s i := fun i => hwf.us_getD hswo hdcK i
  set s2 := (insertNew s k draws usI).1 with hs2
  set lvl := randomLevel draws with hlvl
  set n := s.nodes.length with hn
  have hchain2 : ∀ i, chainAll s2 i =
      if i < lvl then
        (chainAll s i).takeWhile (fun j => pK (keyOf s j)) ++
          n :: (chainAll s i).dropWhile (fun j => pK (keyOf s j))
      else chainAll s i :=
    fun i => insertNew_chainAll hwf hswo hdcK husK k draws i
  have hnxt2 : ∀ x j, nxt s2 x j =
      if x = n then (if j < lvl then nxt s (ustar pK s j) j else none)
      else if j < lvl ∧ x = ustar pK s j then some n
      else nxt s x j := fun x j => insertNew_nxt hwf husK k draws x j
  have hkey2 : ∀ x, keyOf s2 x = if x = n then k else keyOf s x :=
    fun x => insertNew_keyOf s k draws usI x
  have hfwd2 : ∀ x, fwdLen s2 x = if x = n then lvl else fwdLen s x :=
    fun x => insertNew_fwdLen s k draws usI x
  have hlen2 : s2.nodes.length = n + 1 := insertNew_length s k draws usI
  have hkeyOld : ∀ i y, y ∈ chainAll s i → keyOf s2 y = keyOf s y := by
    intro i y hy
    rw [hkey2 y, if_neg (by have := (hwf.chain_mem_bounds hy).2; omega)]
  have hBgt : ∀ i, ∀ b ∈ (chainAll s i).dropWhile (fun j => pK (keyOf s j)),
      lt k (keyOf s b) = true :=
    fun i b hb => hgt b (memB_zero hwf hswo hdcK i hb)
  have hsz := hwf.size_pos
  have hlvl_pos : 1 ≤ lvl := randomLevel_pos draws
  have hlvl_le : lvl ≤ maxLevel := randomLevel_le draws
  haveI htrans2 : IsTrans Nat (fun a b => lt (keyOf s2 a) (keyOf s2 b) = true) :=
    ⟨fun a b c h1 h2 => hswo.trans _ _ _ h1 h2⟩
  refine Wf.mk ?_ ?_ ?_ ?_ ?_ ?_ ?_ ?_ ?_ ?_ ?_
  · rw [hlen2]; omega
  · rw [insertNew_height]; omega
  · rw [insertNew_height]
    have := hwf.height_le
    omega
  · rw [hfwd2 0, if_neg (by omega)]
    exact hwf.head_fwd
  · intro x
    rw [hfwd2 x]
    split
    · exact hlvl_le
    · exact hwf.fwd_le x
  · intro x l j h
    rw [hnxt2 x l] at h
    rw [hlen2]
    rcases Classical.em (x = n) with rfl | hx
    · rw [if_pos rfl] at h
      rcases Nat.lt_or_ge l lvl with hlv | hlv
      · rw [if_pos hlv] at h
        have := hwf.ptr_ok _ l j h
        omega
      · rw [if_neg (by omega)] at h
        exact absurd h (by simp)
    · rw [if_neg hx] at h
      rcases Classical.em (l < lvl ∧ x = ustar pK s l) with hc | hc
      · rw [if_pos hc] at h
        have : j = n := by injection h; omega
        omega
      · rw [if_neg hc] at h
        have := hwf.ptr_ok x l j h
        omega
  · intro i
    rw [List.chain'_iff_pairwise, hchain2 i]
    split
    · rename_i hilvl
      rw [List.pairwise_append]
      refine ⟨?_, ?_, ?_⟩
      · refine ((hwf.pairwise hswo i).sublist (List.takeWhile_sublist _)).imp_of_mem ?_
        intro a b ha hb hab
        rw [hkeyOld i a ((List.takeWhile_sublist _).mem ha),
          hkeyOld i b ((List.takeWhile_sublist _).mem hb)]
        exact hab
      · rw [List.pairwise_cons]
        refine ⟨?_, ?_⟩
        · intro b hb
          rw [hkey2 n, if_pos rfl, hkeyOld i b ((List.dropWhile_sublist _).mem hb)]
          exact hBgt i b hb
        · refine ((hwf.pairwise hswo i).sublist (List.dropWhile_sublist _)).imp_of_mem ?_
          intro a b ha hb hab
          rw [hkeyOld i a ((List.dropWhile_sublist _).mem ha),
            hkeyOld i b ((List.dropWhile_sublist _).mem hb)]
          exact hab
      · intro a ha c hc
        have hka : keyOf s2 a = keyOf s a := hkeyOld i a ((List.takeWhile_sublist _).mem ha)
        rcases List.mem_cons.1 hc with hceq | hc2
        · rw [hka, hceq, hkey2 n, if_pos rfl]
          exact takeWhile_all_true ha
        · rw [hka, hkeyOld i c ((List.dropWhile_sublist _).mem hc2)]
          have hpw := hwf.pairwise hswo i
          rw [← List.takeWhile_append_dropWhile (fun j => pK (keyOf s j)) (chainAll s i),
            List.pairwise_append] at hpw
          exact hpw.2.2 a ha c hc2
    · refine (hwf.pairwise hswo i).imp_of_mem ?_
      intro a b ha hb hab
      rw [hkeyOld i a ha, hkeyOld i b hb]
      exact hab
  · intro i x hx
    rw [hchain2 (i + 1)] at hx
    rw [hchain2 i]
    rcases Nat.lt_or_ge (i + 1) lvl with hi1 | hi1
    · rw [if_pos hi1] at hx
      rw [if_pos (by omega)]
      rcases List.mem_append.1 hx with hxA | hxnB
      · exact List.mem_append.2 (Or.inl (memA_down hwf hswo hdcK i hxA))
      · rcases List.mem_cons.1 hxnB with rfl | hxB
        · exact List.mem_append.2 (Or.inr (List.mem_cons_self _ _))
        · exact List.mem_append.2 (Or.inr (List.mem_cons_of_mem _
            (memB_down hwf hswo hdcK i hxB)))
    · rw [if_neg (by omega)] at hx
      have hxi : x ∈ chainAll s i := hwf.sub i x hx
      split
      · rw [← List.takeWhile_append_dropWhile (fun j => pK (keyOf s j)) (chainAll s i)]
          at hxi
        rcases List.mem_append.1 hxi with h | h
        · exact List.mem_append.2 (Or.inl h)
        · exact List.mem_append.2 (Or.inr (List.mem_cons_of_mem _ h))
      · exact hxi
  · intro l hl
    rw [insertNew_height] at hl
    rw [hnxt2 0 l, if_neg (by omega), if_neg (by rintro ⟨h1, h2⟩; omega)]
    exact hwf.above l (by omega)
  · intro i x hx
    rw [hchain2 i] at hx
    rw [hfwd2 x]
    rcases Nat.lt_or_ge i lvl with hi | hi
    · rw [if_pos hi] at hx
      rcases List.mem_append.1 hx with hxA | hxnB
      · have : x ∈ chainAll s i := (List.takeWhile_sublist _).mem hxA
        rw [if_neg (by have := (hwf.chain_mem_bounds this).2; omega)]
        exact hwf.in_chain_fwd i x this
      · rcases List.mem_cons.1 hxnB with rfl | hxB
        · rw [if_pos rfl]
          exact hi
        · have : x ∈ chainAll s i := (List.dropWhile_sublist _).mem hxB
          rw [if_neg (by have := (hwf.chain_mem_bounds this).2; omega)]
          exact hwf.in_chain_fwd i x this
    · rw [if_neg (by omega)] at hx
      rw [if_neg (by have := (hwf.chain_mem_bounds hx).2; omega)]
      exact hwf.in_chain_fwd i x hx
  · intro i
    rw [hchain2 i]
    rcases Nat.lt_or_ge i lvl with hi | hi
    · rw [if_pos hi, getLastD_append, List.getLastD_cons]
      cases hB : (chainAll s i).dropWhile (fun j => pK (keyOf s j)) with
      | nil =>
        simp only [List.getLastD_nil]
        rw [hnxt2 n i, if_pos rfl, if_pos hi, hwf.nxt_ustar pK i, hB]
        rfl
      | cons b B2 =>
        rw [List.getLastD_cons]
        set z := B2.getLastD b with hz
        have hzB : z ∈ (chainAll s i).dropWhile (fun j => pK (keyOf s j)) := by
          rw [hB, hz]
          have : (b :: B2).getLastD 0 ∈ b :: B2 := getLastD_mem (by simp) 0
          rw [List.getLastD_cons] at this
          exact this
        have hzmem : z ∈ chainAll s i := (List.dropWhile_sublist _).mem hzB
        have hzlt : z < s.nodes.length := (hwf.chain_mem_bounds hzmem).2
        have hzne_u : z ≠ ustar pK s i := by
          rcases ustar_cases pK s i with hcase | hcase
          · have := (hwf.chain_mem_bounds hzmem).1
            omega
          · rw [← List.takeWhile_append_dropWhile (fun j => pK (keyOf s j)) (chainAll s i)]
              at hcase
            have hnd : ((chainAll s i).takeWhile (fun j => pK (keyOf s j)) ++
                (chainAll s i).dropWhile (fun j => pK (keyOf s j))).Nodup := by
              rw [List.takeWhile_append_dropWhile]
              exact hwf.chain_nodup hswo i
            rcases List.mem_append.1 hcase with hcA | hcB
            · intro hcontra
              exact (List.nodup_append.1 hnd).2.2 hcA (hcontra ▸ hzB)
            · intro hcontra
              have husA : ustar pK s i ∈
                  (chainAll s i).takeWhile (fun j => pK (keyOf s j)) ∨
                  ustar pK s i = 0 := by
                unfold ustar
                cases hAc : (chainAll s i).takeWhile (fun j => pK (keyOf s j)) with
                | nil => exact Or.inr rfl
                | cons a A2 => exact Or.inl (getLastD_mem (by simp) 0)
              rcases husA with husA | husA
              · exact (List.nodup_append.1 hnd).2.2 husA (hcontra ▸ hzB)
              · have := (hwf.chain_mem_bounds hzmem).1
                omega
        rw [hnxt2 z i, if_neg (by omega), if_neg (by rintro ⟨h1, h2⟩; exact hzne_u h2)]
        have hcomp := hwf.complete i
        rw [← List.takeWhile_append_dropWhile (fun j => pK (keyOf s j)) (chainAll s i),
          getLastD_append, hB, List.getLastD_cons] at hcomp
        exact hcomp
    · rw [if_neg (by omega)]
      set z := (chainAll s i).getLastD 0 with hz
      have hzne : z ≠ n := by
        rcases Classical.em (chainAll s i = []) with hc | hc
        · rw [hz, hc]
          simp only [List.getLastD_nil]
          omega
        · have hzmem : z ∈ chainAll s i := hz ▸ getLastD_mem hc 0
          have := (hwf.chain_mem_bounds hzmem).2
          omega
      rw [hnxt2 z i, if_neg hzne, if_neg (by rintro ⟨h1, h2⟩; omega)]
      exact hwf.complete i

theorem nxt_empty (t0 : T) (x l : Nat) : nxt (SkipList.empty t0) x l = none := by
  unfold nxt SkipList.empty
  cases x with
  | zero =>
    simp only [List.getElem?_cons_zero]
    rw [List.getElem?_replicate]
    rcases Nat.lt_or_ge l maxLevel with h | h
    · simp [h]
    · simp [Nat.not_lt.2 h]
  | succ x2 => rfl

theorem chainAll_empty (t0 : T) (l : Nat) : chainAll (SkipList.empty t0) l = [] := by
  unfold chainAll
  have : (SkipList.empty t0 : SkipList T).nodes.length = 1 := rfl
  rw [this, chainFrom_succ_none 0 (nxt_empty t0 0 l)]

theorem toList_empty (t0 : T) : (SkipList.empty t0 : SkipList T).toList = [] := by
  unfold SkipList.toList
  rw [chainAll_empty]
  rfl

theorem wf_empty (lt : T → T → Bool) (t0 : T) : Wf lt (SkipList.empty t0) := by
  refine Wf.mk ?_ ?_ ?_ ?_ ?_ ?_ ?_ ?_ ?_ ?_ ?_
  · exact Nat.zero_lt_one
  · exact Nat.le_refl 1
  · simp [SkipList.empty, maxLevel]
  · simp [fwdLen, SkipList.empty]
  · intro x
    unfold fwdLen SkipList.empty
    cases x with
    | zero => simp
    | succ x2 => simp
  · intro x l j h
    rw [nxt_empty] at h
    exact absurd h (by simp)
  · intro l
    rw [chainAll_empty]
    exact List.chain'_nil
  · intro l x hx
    rw [chainAll_empty] at hx
    simp at hx
  · intro l _
    exact nxt_empty t0 0 l
  · intro l x hx
    rw [chainAll_empty] at hx
    simp at hx
  · intro l
    rw [chainAll_empty]
    exact nxt_empty t0 0 l

/-- The traversal after a successful `insertNew` is the sorted insertion of
the new key into the old traversal. -/
theorem insertNew_toList (hwf : Wf lt s) (hswo : IsSWO lt) (k : T) (draws : List Nat) :
    (insertNew s k draws
      ((updList (fun a => lt a k) s s.nodes.length 0 (s.height - 1)).reverse)).1.toList =
      s.toList.takeWhile (fun x => lt x k) ++ k :: s.toList.dropWhile (fun x => lt x k) := by
  have hdcK : ∀ a b : T, lt a b = true →
      (fun a => lt a k) b = true → (fun a => lt a k) a = true :=
    fun a b hab hbk => hswo.trans a b k hab hbk
  have husK : ∀ i, ((updList (fun a => lt a k) s s.nodes.length 0
      (s.height - 1)).reverse).getD i 0 = ustar (fun a => lt a k) s i :=
    fun i => hwf.us_getD hswo hdcK i
  have hchain0 := insertNew_chainAll hwf hswo hdcK husK k draws 0
  rw [if_pos (show 0 < randomLevel draws from randomLevel_pos draws)] at hchain0
  unfold SkipList.toList
  rw [hchain0, List.map_append, List.map_cons]
  have hkeyA : ∀ y ∈ (chainAll s 0).takeWhile
      (fun j => (fun a => lt a k) (keyOf s j)),
      keyOf (insertNew s k draws ((updList (fun a => lt a k) s s.nodes.length 0
        (s.height - 1)).reverse)).1 y = keyOf s y := by
    intro y hy
    rw [insertNew_keyOf, if_neg]
    have := (hwf.chain_mem_bounds ((List.takeWhile_sublist _).mem hy)).2
    omega
  have hkeyB : ∀ y ∈ (chainAll s 0).dropWhile
      (fun j => (fun a => lt a k) (keyOf s j)),
      keyOf (insertNew s k draws ((updList (fun a => lt a k) s s.nodes.length 0
        (s.height - 1)).reverse)).1 y = keyOf s y := by
    intro y hy
    rw [insertNew_keyOf, if_neg]
    have := (hwf.chain_mem_bounds ((List.dropWhile_sublist _).mem hy)).2
    omega
  rw [List.map_congr_left hkeyA, List.map_congr_left hkeyB]
  rw [insertNew_keyOf, if_pos rfl]
  rw [List.takeWhile_map, List.dropWhile_map]
  rfl

/-- `Insert` dispatches on the head of the not-less suffix of the bottom
chain: an equivalent head is returned as-is, otherwise a node is linked. -/
theorem Insert_eq_cases (hwf : Wf lt s) (hswo : IsSWO lt) (k : T) (draws : List Nat) :
    s.Insert lt k draws =
      match ((chainAll s 0).dropWhile (fun j => lt (keyOf s j) k)).head? with
      | some b =>
        if keyEq lt k (keyOf s b) then (s, some b)
        else insertNew s k draws
          ((updList (fun a => lt a k) s s.nodes.length 0 (s.height - 1)).reverse)
      | none =>
        insertNew s k draws
          ((updList (fun a => lt a k) s s.nodes.length 0 (s.height - 1)).reverse) := by
  have hdcK : ∀ a b : T, lt a b = true →
      (fun a => lt a k) b = true → (fun a => lt a k) a = true :=
    fun a b hab hbk => hswo.trans a b k hab hbk
  unfold SkipList.Insert
  simp only [hwf.us_getD hswo hdcK, hwf.nxt_ustar (fun a => lt a k) 0]

theorem find_eq (hwf : Wf lt s) (hswo : IsSWO lt) (k : T) :
    s.Find lt k =
      match ((chainAll s 0).dropWhile (fun j => lt (keyOf s j) k)).head? with
      | none => none
      | some j => if lt k (keyOf s j) then none else some j := by
  have hdcK : ∀ a b : T, lt a b = true →
      (fun a => lt a k) b = true → (fun a => lt a k) a = true :=
    fun a b hab hbk => hswo.trans a b k hab hbk
  unfold SkipList.Find
  simp only [hwf.updList_getLastD hswo hdcK, hwf.nxt_ustar (fun a => lt a k) 0]

theorem lowerBound_eq (hwf : Wf lt s) (hswo : IsSWO lt) (k : T) :
    s.LowerBound lt k =
      ((chainAll s 0).dropWhile (fun j => lt (keyOf s j) k)).head? := by
  have hdcK : ∀ a b : T, lt a b = true →
      (fun a => lt a k) b = true → (fun a => lt a k) a = true :=
    fun a b hab hbk => hswo.trans a b k hab hbk
  unfold SkipList.LowerBound
  simp only [hwf.updList_getLastD hswo hdcK, hwf.nxt_ustar (fun a => lt a k) 0]

theorem upperBound_eq (hwf : Wf lt s) (hswo : IsSWO lt) (k : T) :
    s.UpperBound lt k =
      ((chainAll s 0).dropWhile (fun j => !(lt k (keyOf s j)))).head? := by
  have hdcU : ∀ a b : T, lt a b = true →
      (fun a => !(lt k a)) b = true → (fun a => !(lt k a)) a = true := by
    intro a b hab hkb
    simp only [Bool.not_eq_true'] at hkb ⊢
    cases hka : lt k a
    · rfl
    · rw [hswo.trans k a b hka hab] at hkb
      exact hkb
  unfold SkipList.UpperBound
  simp only [hwf.updList_getLastD hswo hdcU, hwf.nxt_ustar (fun a => !(lt k a)) 0]

theorem keyEq_iff {lt : T → T → Bool} {a b : T} :
    keyEq lt a b = true ↔ lt b a = false ∧ lt a b = false := by
  unfold keyEq
  constructor
  · intro h
    simp only [Bool.and_eq_true, Bool.not_eq_true'] at h
    exact h
  · rintro ⟨h1, h2⟩
    simp [h1, h2]

theorem keyEq_symm (lt : T → T → Bool) (a b : T) : keyEq lt a b = keyEq lt b a := by
  unfold keyEq
  rw [Bool.and_comm]

theorem keyEq_eq_false_of_lt {lt : T → T → Bool} {a b : T} (h : lt a b = true) :
    keyEq lt a b = false := by
  unfold keyEq
  rw [h]
  simp

theorem IsSWO.keyEq_trans {lt : T → T → Bool} (hswo : IsSWO lt) {a b c : T}
    (h1 : keyEq lt a b = true) (h2 : keyEq lt b c = true) : keyEq lt a c = true := by
  obtain ⟨hba, hab⟩ := keyEq_iff.1 h1
  obtain ⟨hcb, hbc⟩ := keyEq_iff.1 h2
  have := hswo.incomp_trans a b c hab hba hbc hcb
  exact keyEq_iff.2 ⟨this.2, this.1⟩

/-- If an equivalent key is already present, `Insert` returns exactly that
node and the unchanged list. -/
theorem insert_dup (hwf : Wf lt s) (hswo : IsSWO lt) {k : T} {j : Nat}
    (hj : j ∈ chainAll s 0) (heq : keyEq lt k (keyOf s j) = true) (draws : List Nat) :
    s.Insert lt k draws = (s, some j) := by
  rw [Insert_eq_cases hwf hswo k draws]
  obtain ⟨hjk, hkj⟩ := keyEq_iff.1 heq
  have hjB : j ∈ (chainAll s 0).dropWhile (fun j2 => lt (keyOf s j2) k) := by
    rw [← List.takeWhile_append_dropWhile (fun j2 => lt (keyOf s j2) k) (chainAll s 0)]
      at hj
    rcases List.mem_append.1 hj with h | h
    · have h2 : lt (keyOf s j) k = true := by
        simpa using takeWhile_all_true (p := fun a => lt a k) h
      rw [hjk] at h2
      exact absurd h2 (by simp)
    · exact h
  cases hB : (chainAll s 0).dropWhile (fun j2 => lt (keyOf s j2) k) with
  | nil => rw [hB] at hjB; simp at hjB
  | cons b B2 =>
    have hbhead : lt (keyOf s b) k = false := by
      have := List.head?_dropWhile_not (fun j2 => lt (keyOf s j2) k) (chainAll s 0)
      rw [hB] at this
      simpa using this
    have hjb : j = b := by
      rw [hB] at hjB
      rcases List.mem_cons.1 hjB with h | h
      · exact h
      · exfalso
        have hpw : List.Pairwise (fun a b => lt (keyOf s a) (keyOf s b) = true)
            (b :: B2) := by
          rw [← hB]
          exact (hwf.pairwise hswo 0).sublist (List.dropWhile_sublist _)
        have hbj : lt (keyOf s b) (keyOf s j) = true := (List.pairwise_cons.1 hpw).1 j h
        have hkb : lt k (keyOf s b) = false := by
          cases hkb : lt k (keyOf s b)
          · rfl
          · have := hswo.trans _ _ _ hkb hbj
            rw [hkj] at this
            exact absurd this (by simp)
        have := hswo.incomp_trans (keyOf s b) k (keyOf s j) hbhead hkb hkj hjk
        rw [hbj] at this
        exact absurd this.1 (by simp)
    simp only [List.head?_cons]
    rw [← hjb, heq]
    simp

/-- `Insert` preserves the invariant, and its effect on the traversal is
exactly the reference sorted-set insertion. -/
theorem Insert_wf_toList (hwf : Wf lt s) (hswo : IsSWO lt) (k : T) (draws : List Nat) :
    Wf lt (s.Insert lt k draws).1 ∧
      (s.Insert lt k draws).1.toList = linsert lt k s.toList := by
  rw [Insert_eq_cases hwf hswo k draws]
  have hmapB : s.toList.dropWhile (fun x => lt x k) =
      ((chainAll s 0).dropWhile (fun j => lt (keyOf s j) k)).map (keyOf s) := by
    unfold SkipList.toList
    rw [List.dropWhile_map]
    rfl
  have hmapA : s.toList.takeWhile (fun x => lt x k) =
      ((chainAll s 0).takeWhile (fun j => lt (keyOf s j) k)).map (keyOf s) := by
    unfold SkipList.toList
    rw [List.takeWhile_map]
    rfl
  cases hB : (chainAll s 0).dropWhile (fun j => lt (keyOf s j) k) with
  | nil =>
    simp only [List.head?_nil]
    refine ⟨insertNew_wf hwf hswo (by rw [hB]; intro b hb; simp at hb) draws, ?_⟩
    rw [insertNew_toList hwf hswo k draws]
    unfold linsert
    rw [hmapB, hB]
    simp only [List.map_nil]
  | cons b B2 =>
    simp only [List.head?_cons]
    by_cases heq : keyEq lt k (keyOf s b) = true
    · rw [if_pos heq]
      refine ⟨hwf, ?_⟩
      unfold linsert
      rw [hmapB, hB, List.map_cons]
      simp only
      rw [heq]
      simp
    · rw [if_neg heq]
      have hgt := gt_of_dup_fail hwf hswo (by
        intro b2 hb2
        rw [hB] at hb2
        simp only [List.head?_cons, Option.some_inj] at hb2
        rw [← hb2]
        exact Bool.eq_false_iff.2 heq)
      refine ⟨insertNew_wf hwf hswo hgt draws, ?_⟩
      rw [insertNew_toList hwf hswo k draws]
      unfold linsert
      rw [hmapB, hB, List.map_cons]
      simp only
      rw [show keyEq lt k (keyOf s b) = false from Bool.eq_false_iff.2 heq]
      simp

theorem foldl_insert_wf (hswo : IsSWO lt) :
    ∀ (ops : List (T × List Nat)) (s : SkipList T), Wf lt s →
      Wf lt (ops.foldl (fun s op => (s.Insert lt op.1 op.2).1) s) ∧
      (ops.foldl (fun s op => (s.Insert lt op.1 op.2).1) s).toList =
        ops.foldl (fun acc op => linsert lt op.1 acc) s.toList
  | [], s, hwf => ⟨hwf, rfl⟩
  | op :: ops, s, hwf => by
    simp only [List.foldl_cons]
    obtain ⟨hw1, ht1⟩ := Insert_wf_toList hwf hswo op.1 op.2
    obtain ⟨hw2, ht2⟩ := foldl_insert_wf hswo ops _ hw1
    exact ⟨hw2, by rw [ht2, ht1]⟩

/-- A list built by any sequence of inserts is well formed, and its traversal
is the fold of the reference sorted-set insertion over the inserted keys. -/
theorem insertSeq_wf (hswo : IsSWO lt) (t0 : T) (ops : List (T × List Nat)) :
    Wf lt (insertSeq lt t0 ops) ∧
      (insertSeq lt t0 ops).toList =
        ops.foldl (fun acc op => linsert lt op.1 acc) [] := by
  obtain ⟨h1, h2⟩ := foldl_insert_wf hswo ops (SkipList.empty t0) (wf_empty lt t0)
  refine ⟨h1, ?_⟩
  unfold insertSeq
  rw [h2, toList_empty]

theorem keyEq_false_left {lt : T → T → Bool} {a b : T} (h : lt b a = true) :
    keyEq lt a b = false := by
  unfold keyEq
  rw [h]
  simp

/-- `Find` returns the end iterator exactly when no traversal key is
comparator-equivalent to the probe. -/
theorem find_none_iff (hwf : Wf lt s) (hswo : IsSWO lt) (k : T) :
    s.Find lt k = none ↔ ∀ x ∈ s.toList, keyEq lt k x = false := by
  rw [find_eq hwf hswo k]
  have htl : s.toList =
      ((chainAll s 0).takeWhile (fun j => lt (keyOf s j) k)).map (keyOf s) ++
      ((chainAll s 0).dropWhile (fun j => lt (keyOf s j) k)).map (keyOf s) := by
    unfold SkipList.toList
    conv_lhs => rw [← List.takeWhile_append_dropWhile
      (fun j => lt (keyOf s j) k) (chainAll s 0)]
    rw [List.map_append]
  have hA : ∀ x ∈ ((chainAll s 0).takeWhile (fun j => lt (keyOf s j) k)).map (keyOf s),
      keyEq lt k x = false := by
    intro x hx
    obtain ⟨y, hy, rfl⟩ := List.mem_map.1 hx
    have h1 : lt (keyOf s y) k = true := by
      simpa using takeWhile_all_true (p := fun a => lt a k) hy
    exact keyEq_false_left h1
  cases hB : (chainAll s 0).dropWhile (fun j => lt (keyOf s j) k) with
  | nil =>
    simp only [List.head?_nil]
    constructor
    · intro _ x hx
      rw [htl, hB] at hx
      simp only [List.map_nil, List.append_nil] at hx
      exact hA x hx
    · intro _
      trivial
  | cons b B2 =>
    simp only [List.head?_cons]
    have hbfalse : lt (keyOf s b) k = false := by
      have := List.head?_dropWhile_not (fun j => lt (keyOf s j) k) (chainAll s 0)
      rw [hB] at this
      simpa using this
    by_cases hlt : lt k (keyOf s b) = true
    · rw [if_pos hlt]
      constructor
      · intro _ x hx
        rw [htl, hB] at hx
        rcases List.mem_append.1 hx with hx | hx
        · exact hA x hx
        · obtain ⟨y, hy, rfl⟩ := List.mem_map.1 hx
          have hky : lt k (keyOf s y) = true := by
            rcases List.mem_cons.1 hy with rfl | hy2
            · exact hlt
            · have hpw : List.Pairwise
                  (fun a b => lt (keyOf s a) (keyOf s b) = true) (b :: B2) := by
                rw [← hB]
                exact (hwf.pairwise hswo 0).sublist (List.dropWhile_sublist _)
              exact hswo.trans _ _ _ hlt ((List.pairwise_cons.1 hpw).1 y hy2)
          exact keyEq_eq_false_of_lt hky
      · intro _
        trivial
    · rw [if_neg hlt]
      constructor
      · intro h
        exact absurd h (by simp)
      · intro hall
        exfalso
        have hmem : keyOf s b ∈ s.toList := by
          rw [htl, hB]
          refine List.mem_append.2 (Or.inr ?_)
          exact List.mem_map.2 ⟨b, List.mem_cons_self _ _, rfl⟩
        have := hall (keyOf s b) hmem
        rw [keyEq_iff.2 ⟨hbfalse, Bool.eq_false_iff.2 hlt⟩] at this
        exact absurd this (by simp)

theorem linsert_nil_eq {lt : T → T → Bool} {k2 : T} {acc : List T}
    (h : acc.dropWhile (fun x => lt x k2) = []) :
    linsert lt k2 acc = acc.takeWhile (fun x => lt x k2) ++ [k2] := by
  unfold linsert
  split
  · rfl
  · rename_i x0 tl heq
    rw [h] at heq
    exact absurd heq (by simp)

theorem linsert_cons_pos {lt : T → T → Bool} {k2 x0 : T} {tl acc : List T}
    (h : acc.dropWhile (fun x => lt x k2) = x0 :: tl)
    (he : keyEq lt k2 x0 = true) : linsert lt k2 acc = acc := by
  unfold linsert
  split
  · rename_i heq
    rw [h] at heq
    exact absurd heq (by simp)
  · rename_i x1 tl1 heq
    rw [h] at heq
    obtain ⟨h1, _⟩ := List.cons_eq_cons.1 heq
    rw [← h1, he]
    simp

theorem linsert_cons_neg {lt : T → T → Bool} {k2 x0 : T} {tl acc : List T}
    (h : acc.dropWhile (fun x => lt x k2) = x0 :: tl)
    (he : keyEq lt k2 x0 = false) :
    linsert lt k2 acc = acc.takeWhile (fun x => lt x k2) ++ k2 :: x0 :: tl := by
  unfold linsert
  split
  · rename_i heq
    rw [h] at heq
    exact absurd heq (by simp)
  · rename_i x1 tl1 heq
    rw [h] at heq
    obtain ⟨h1, h2⟩ := List.cons_eq_cons.1 heq
    rw [← h1, he]
    simp [h2]

/-- Equivalence-membership through one reference insertion. -/
theorem linsert_equiv_mem (hswo : IsSWO lt) (k k2 : T) (acc : List T) :
    (∃ x ∈ linsert lt k2 acc, keyEq lt k x = true) ↔
      (keyEq lt k k2 = true ∨ ∃ x ∈ acc, keyEq lt k x = true) := by
  have hsplit := List.takeWhile_append_dropWhile (fun x => lt x k2) acc
  cases hdw : acc.dropWhile (fun x => lt x k2) with
  | nil =>
    rw [linsert_nil_eq hdw]
    rw [hdw, List.append_nil] at hsplit
    constructor
    · rintro ⟨x, hx, hequiv⟩
      rcases List.mem_append.1 hx with hx | hx
      · exact Or.inr ⟨x, by rw [← hsplit]; exact hx, hequiv⟩
      · simp only [List.mem_singleton] at hx
        subst hx
        exact Or.inl hequiv
    · rintro (h | ⟨x, hx, hequiv⟩)
      · exact ⟨k2, List.mem_append.2 (Or.inr (by simp)), h⟩
      · exact ⟨x, List.mem_append.2 (Or.inl (by rw [hsplit]; exact hx)), hequiv⟩
  | cons x0 tl =>
    by_cases heq2 : keyEq lt k2 x0 = true
    · rw [linsert_cons_pos hdw heq2]
      constructor
      · intro h
        exact Or.inr h
      · rintro (h | h)
        · have hx0 : x0 ∈ acc := by
            have : x0 ∈ acc.dropWhile (fun x => lt x k2) := by
              rw [hdw]
              exact List.mem_cons_self _ _
            exact (List.dropWhile_sublist _).mem this
          exact ⟨x0, hx0, hswo.keyEq_trans h heq2⟩
        · exact h
    · rw [linsert_cons_neg hdw (Bool.eq_false_iff.2 heq2)]
      constructor
      · rintro ⟨x, hx, hequiv⟩
        rcases List.mem_append.1 hx with hx | hx
        · refine Or.inr ⟨x, ?_, hequiv⟩
          exact (List.takeWhile_sublist _).mem hx
        · rcases List.mem_cons.1 hx with rfl | hx
          · exact Or.inl hequiv
          · refine Or.inr ⟨x, ?_, hequiv⟩
            have : x ∈ acc.dropWhile (fun x => lt x k2) := by
              rw [hdw]
              exact hx
            exact (List.dropWhile_sublist _).mem this
      · rintro (h | ⟨x, hx, hequiv⟩)
        · exact ⟨k2, List.mem_append.2 (Or.inr (List.mem_cons_self _ _)), h⟩
        · rw [← hsplit] at hx
          rcases List.mem_append.1 hx with hx | hx
          · exact ⟨x, List.mem_append.2 (Or.inl hx), hequiv⟩
          · rw [hdw] at hx
            exact ⟨x, List.mem_append.2 (Or.inr (List.mem_cons_of_mem _ hx)), hequiv⟩

theorem foldl_linsert_equiv (hswo : IsSWO lt) (k : T) :
    ∀ (ops : List (T × List Nat)) (acc : List T),
    (∃ x ∈ ops.foldl (fun acc op => linsert lt op.1 acc) acc, keyEq lt k x = true) ↔
      ((∃ k2 ∈ ops.map Prod.fst, keyEq lt k k2 = true) ∨
        ∃ x ∈ acc, keyEq lt k x = true)
  | [], acc => by simp
  | op :: ops, acc => by
    simp only [List.foldl_cons, List.map_cons]
    rw [foldl_linsert_equiv hswo k ops (linsert lt op.1 acc),
      linsert_equiv_mem hswo k op.1 acc]
    constructor
    · rintro (⟨k2, hk2, he⟩ | (h | h))
      · exact Or.inl ⟨k2, List.mem_cons_of_mem _ hk2, he⟩
      · exact Or.inl ⟨op.1, List.mem_cons_self _ _, h⟩
      · exact Or.inr h
    · rintro (⟨k2, hk2, he⟩ | h)
      · rcases List.mem_cons.1 hk2 with rfl | hk2
        · exact Or.inr (Or.inl he)
        · exact Or.inl ⟨k2, hk2, he⟩
      · exact Or.inr (Or.inr h)

/-! ## A concrete integer comparator, for the integer-keyed concrete cases -/

/-- `operator<` on integers. -/
def natLtB : Nat → Nat → Bool := fun a b => decide (a < b)

theorem natLtB_swo : IsSWO natLtB := by
  refine ⟨?_, ?_, ?_⟩
  · intro a
    simp [natLtB]
  · intro a b c hab hbc
    simp only [natLtB, decide_eq_true_eq] at hab hbc ⊢
    omega
  · intro a b c h1 h2 h3 h4
    simp only [natLtB, decide_eq_false_iff_not] at h1 h2 h3 h4 ⊢
    omega

theorem find_some_keyEq (hwf : Wf lt s) (hswo : IsSWO lt) {k : T} {j : Nat}
    (h : s.Find lt k = some j) : keyEq lt k (keyOf s j) = true := by
  rw [find_eq hwf hswo k] at h
  cases hdw : (chainAll s 0).dropWhile (fun j2 => lt (keyOf s j2) k) with
  | nil =>
    rw [hdw] at h
    simp at h
  | cons b rest =>
    rw [hdw] at h
    simp only [List.head?_cons] at h
    have hblt : lt (keyOf s b) k = false := by
      have := List.head?_dropWhile_not (fun j2 => lt (keyOf s j2) k) (chainAll s 0)
      rw [hdw] at this
      simpa using this
    by_cases hkb : lt k (keyOf s b) = true
    · rw [if_pos hkb] at h
      simp at h
    · rw [if_neg hkb] at h
      injection h with h
      subst h
      rw [keyEq_iff]
      exact ⟨hblt, Bool.eq_false_iff.2 hkb⟩

theorem toList_dropWhile (s : SkipList T) (p : T → Bool) :
    s.toList.dropWhile p =
      ((chainAll s 0).dropWhile (fun j => p (keyOf s j))).map (keyOf s) := by
  unfold SkipList.toList
  rw [List.dropWhile_map]
  rfl

/-- C1: every insertion sequence (any order, duplicates allowed) yields a
traversal whose keys are strictly increasing under the comparator and
pairwise comparator-inequivalent; inserting [5, 3, 8, 3, 1] with integer
keys yields traversal [1, 3, 5, 8] for every choice of random draws. -/
theorem claim_C1 :
    (∀ (U : Type) [Inhabited U] (lt2 : U → U → Bool), IsSWO lt2 →
      ∀ (t0 : U) (ops : List (U × List Nat)),
        List.Pairwise (fun a b => lt2 a b = true ∧ keyEq lt2 a b = false)
          (insertSeq lt2 t0 ops).toList) ∧
    ∀ d1 d2 d3 d4 d5 : List Nat,
      (insertSeq natLtB 0 [(5, d1), (3, d2), (8, d3), (3, d4), (1, d5)]).toList =
        [1, 3, 5, 8] := by
  constructor
  · intro U _ lt2 hswo t0 ops
    obtain ⟨hwf, _⟩ := insertSeq_wf hswo t0 ops
    have hp := hwf.pairwise hswo 0
    unfold SkipList.toList
    rw [List.pairwise_map]
    refine hp.imp ?_
    intro a b hab
    exact ⟨hab, keyEq_eq_false_of_lt hab⟩
  · intro d1 d2 d3 d4 d5
    rw [(insertSeq_wf natLtB_swo 0 [(5, d1), (3, d2), (8, d3), (3, d4), (1, d5)]).2]
    rfl

theorem claim_C1_witness :
    List.Pairwise (fun a b => natLtB a b = true ∧ keyEq natLtB a b = false)
      (insertSeq natLtB 0 [(5, []), (3, []), (8, []), (3, []), (1, [])]).toList ∧
    (insertSeq natLtB 0 [(5, []), (3, []), (8, []), (3, []), (1, [])]).toList =
      [1, 3, 5, 8] :=
  ⟨claim_C1.1 Nat natLtB natLtB_swo 0 [(5, []), (3, []), (8, []), (3, []), (1, [])],
    claim_C1.2 [] [] [] [] []⟩

/-- C5: if the list already holds a node whose key is comparator-equivalent
to `k`, `Insert k` returns that node and leaves the list unchanged. -/
theorem claim_C5 (hwf : Wf lt s) (hswo : IsSWO lt) (k : T) (draws : List Nat)
    (hdup : ∃ j ∈ chainAll s 0, keyEq lt k (keyOf s j) = true) :
    ∃ j ∈ chainAll s 0, keyEq lt k (keyOf s j) = true ∧
      s.Insert lt k draws = (s, some j) := by
  obtain ⟨j, hj, he⟩ := hdup
  exact ⟨j, hj, he, insert_dup hwf hswo hj he draws⟩

theorem claim_C5_witness :
    ∃ j ∈ chainAll (insertSeq natLtB 0 [(5, []), (3, []), (8, [])]) 0,
      keyEq natLtB 3 (keyOf (insertSeq natLtB 0 [(5, []), (3, []), (8, [])]) j) = true ∧
      (insertSeq natLtB 0 [(5, []), (3, []), (8, [])]).Insert natLtB 3 [] =
        (insertSeq natLtB 0 [(5, []), (3, []), (8, [])], some j) :=
  claim_C5 (insertSeq_wf natLtB_swo 0 [(5, []), (3, []), (8, [])]).1 natLtB_swo 3 []
    (by decide)

/-- C6: after any insertion sequence, `Find k` is the end iterator iff no
inserted key is comparator-equivalent to `k`; when it returns a node, that
node's key is comparator-equivalent to `k`. -/
theorem claim_C6 (hswo : IsSWO lt) (t0 : T) (ops : List (T × List Nat)) (k : T) :
    ((insertSeq lt t0 ops).Find lt k = none ↔
      ∀ k2 ∈ ops.map Prod.fst, keyEq lt k k2 = false) ∧
    ∀ j, (insertSeq lt t0 ops).Find lt k = some j →
      keyEq lt k (keyOf (insertSeq lt t0 ops) j) = true := by
  obtain ⟨hwf, htl⟩ := insertSeq_wf hswo t0 ops
  constructor
  · rw [find_none_iff hwf hswo k]
    constructor
    · intro h k2 hk2
      by_contra hne
      have htrue : keyEq lt k k2 = true := by
        cases hx : keyEq lt k k2
        · exact absurd hx hne
        · rfl
      have hex : ∃ x ∈ (insertSeq lt t0 ops).toList, keyEq lt k x = true := by
        rw [htl]
        exact (foldl_linsert_equiv hswo k ops []).2 (Or.inl ⟨k2, hk2, htrue⟩)
      obtain ⟨x, hx, he⟩ := hex
      rw [h x hx] at he
      exact absurd he (by simp)
    · intro h x hx
      by_contra hne
      have htrue : keyEq lt k x = true := by
        cases hy : keyEq lt k x
        · exact absurd hy hne
        · rfl
      rw [htl] at hx
      rcases (foldl_linsert_equiv hswo k ops []).1 ⟨x, hx, htrue⟩ with hc | hc
      · obtain ⟨k2, hk2, he2⟩ := hc
        rw [h k2 hk2] at he2
        exact absurd he2 (by simp)
      · obtain ⟨y, hy, _⟩ := hc
        exact absurd hy (by simp)
  · intro j hj
    exact find_some_keyEq hwf hswo hj

theorem claim_C6_witness :
    ((insertSeq natLtB 0 [(5, []), (3, []), (8, [])]).Find natLtB 9 = none ↔
      ∀ k2 ∈ ([(5, []), (3, []), (8, [])] : List (Nat × List Nat)).map Prod.fst,
        keyEq natLtB 9 k2 = false) ∧
    ∀ j, (insertSeq natLtB 0 [(5, []), (3, []), (8, [])]).Find natLtB 9 = some j →
      keyEq natLtB 9 (keyOf (insertSeq natLtB 0 [(5, []), (3, []), (8, [])]) j) = true :=
  claim_C6 natLtB_swo 0 [(5, []), (3, []), (8, [])] 9

/-- C7: `LowerBound k` returns the first element of the reference sorted
sequence of inserted keys not less than `k`, and `UpperBound k` the first
element strictly greater than `k`, each `none` (End) when no such element
exists. -/
theorem claim_C7 (hswo : IsSWO lt) (t0 : T) (ops : List (T × List Nat)) (k : T) :
    ((insertSeq lt t0 ops).LowerBound lt k).map (keyOf (insertSeq lt t0 ops)) =
      (ops.foldl (fun acc op => linsert lt op.1 acc) []).find? (fun x => !(lt x k)) ∧
    ((insertSeq lt t0 ops).UpperBound lt k).map (keyOf (insertSeq lt t0 ops)) =
      (ops.foldl (fun acc op => linsert lt op.1 acc) []).find? (fun x => lt k x) := by
  obtain ⟨hwf, htl⟩ := insertSeq_wf hswo t0 ops
  rw [← htl]
  constructor
  · rw [lowerBound_eq hwf hswo k,
      List.find?_eq_head?_dropWhile_not (fun x => !(lt x k)) (insertSeq lt t0 ops).toList]
    simp only [Bool.not_not]
    rw [toList_dropWhile, List.head?_map]
  · rw [upperBound_eq hwf hswo k,
      List.find?_eq_head?_dropWhile_not (fun x => lt k x) (insertSeq lt t0 ops).toList]
    rw [toList_dropWhile, List.head?_map]

theorem claim_C7_witness :
    ((insertSeq natLtB 0 [(5, []), (3, []), (8, [])]).LowerBound natLtB 4).map
        (keyOf (insertSeq natLtB 0 [(5, []), (3, []), (8, [])])) =
      (([(5, []), (3, []), (8, [])] : List (Nat × List Nat)).foldl
        (fun acc op => linsert natLtB op.1 acc) []).find? (fun x => !(natLtB x 4)) ∧
    ((insertSeq natLtB 0 [(5, []), (3, []), (8, [])]).UpperBound natLtB 4).map
        (keyOf (insertSeq natLtB 0 [(5, []), (3, []), (8, [])])) =
      (([(5, []), (3, []), (8, [])] : List (Nat × List Nat)).foldl
        (fun acc op => linsert natLtB op.1 acc) []).find? (fun x => natLtB 4 x) :=
  claim_C7 natLtB_swo 0 [(5, []), (3, []), (8, [])] 4

/-! ## Blocks (`Block.cc`)

Byte buffers are `List Nat` (each element one byte), pointers into the
block are offsets. -/

/-- Modelled from the spec: `coding::GetVar32` (`Coding.h` is not among the
repository's files). Base-128 varint, low 7 bits first, at most 5 bytes;
`none` stands for the exception thrown on truncated or malformed input. -/
def getVar32Go : Nat → Nat → Nat → List Nat → Option (Nat × List Nat)
  | _, _, _, [] => none
  | 0, _, _, _ :: _ => none
  | fuel + 1, shift, acc, b :: rest =>
    if b < 128 then some (acc + b * 2 ^ shift, rest)
    else getVar32Go fuel (shift + 7) (acc + b % 128 * 2 ^ shift) rest

def getVar32 (l : List Nat) : Option (Nat × List Nat) := getVar32Go 5 0 0 l

/-- Modelled from the spec: `ConstDataView::ReadNum<uint32_t>` (`DataView.h`
is not among the repository's files), a little-endian 4-byte read. -/
def readU32 (data : List Nat) (off : Nat) : Nat :=
  data.getD off 0 + 256 * data.getD (off + 1) 0 + 65536 * data.getD (off + 2) 0 +
    16777216 * data.getD (off + 3) 0

/-- A block is its raw byte content (`data_` / `size_`). -/
structure Block where
  data : List Nat
  deriving DecidableEq

def Block.size (b : Block) : Nat := b.data.length

/-- `num_restart_`, read from the last four bytes. -/
def Block.numRestart (b : Block) : Nat := readU32 b.data (b.size - 4)

/-- `data_end_` as an offset: entries occupy `[0, dataEnd)`. -/
def Block.dataEnd (b : Block) : Nat := b.size - 4 * (b.numRestart + 1)

/-- `restartPoint(id)`. -/
def Block.restartPoint (b : Block) (id : Nat) : Nat :=
  readU32 b.data (b.size - 4 * (b.numRestart - id + 1))

/-- The slice `Slice(data_ + p, data_end_ - data_ - p)`. -/
def Block.region (b : Block) (p : Nat) : List Nat := (b.data.take b.dataEnd).drop p

/-- `keyAtRestartPoint(id)`: decode the three varints at the restart offset
and return the `unshared` bytes that follow. A varint parse failure throws
in the C++ (there is no catch on this path); the junk value `[]` stands in
for it and is never reached under the well-formedness hypotheses used
below. -/
def Block.keyAtRestartPoint (b : Block) (id : Nat) : List Nat :=
  match getVar32 (b.region (b.restartPoint id)) with
  | none => []
  | some (_, buf1) =>
    match getVar32 buf1 with
    | none => []
    | some (unshared, buf2) =>
      match getVar32 buf2 with
      | none => []
      | some (_, buf3) => buf3.take unshared

/-- `BlockConstIterator`: `buf` is the offset of the key delta (`buf_`),
`lastKey` the offset the previous entry started at (`last_key_`, `none` for
nullptr), `ok` the status (`stat_`, `true` = OK). -/
structure BCursor where
  buf : Nat
  bufLen : Nat
  shared : Nat
  unshared : Nat
  valueLen : Nat
  lastKey : Option Nat
  restartPos : Nat
  ok : Bool
  deriving DecidableEq

/-- `BlockConstIterator::init(p)`: decode the three varint length fields at
`p`; on failure set the corruption status and leave the position fields as
they were; at `p = data_end_` become the end iterator. -/
def BCursor.init (blk : Block) (c : BCursor) (p : Nat) : BCursor :=
  if 0 < blk.dataEnd - p then
    match getVar32 (blk.region p) with
    | none => { c with ok := false }
    | some (sh, b1) =>
      let c1 := { c with shared := sh }
      match getVar32 b1 with
      | none => { c1 with ok := false }
      | some (ush, b2) =>
        let c2 := { c1 with unshared := ush }
        match getVar32 b2 with
        | none => { c2 with ok := false }
        | some (vl, b3) =>
          let c3 := { c2 with
            valueLen := vl
            buf := blk.dataEnd - b3.length
            bufLen := b3.length }
          if ush == 0 then { c3 with restartPos := p } else c3
  else
    { c with buf := p, bufLen := 0 }

/-- The constructor `BlockConstIterator(p, block, restart)`: null
`last_key_`, the given restart position, then `init(p)`. -/
def mkCursor (blk : Block) (p restart : Nat) : BCursor :=
  BCursor.init blk
    { buf := 0, bufLen := 0, shared := 0, unshared := 0, valueLen := 0,
      lastKey := none, restartPos := restart, ok := true } p

def Block.beginC (blk : Block) : BCursor := mkCursor blk 0 0

def Block.endC (blk : Block) : BCursor := mkCursor blk blk.dataEnd 0

/-- `BlockConstIterator::equal`. -/
def BCursor.equal (a b2 : BCursor) : Bool := a.buf == b2.buf && a.bufLen == b2.bufLen

/-- `BlockConstIterator::Key()`: `none` stands for the asserted
precondition `buf_ != data_end_` failing, and for the null `last_key_`
dereference: the replay loop computes a fresh iterator `it` but discards
it, so `last_key_` is still null when `key_.append(last_key_, shared_)`
runs, which reads through nullptr whenever `shared_ > 0`. -/
def BCursor.Key (blk : Block) (c : BCursor) : Option (List Nat) :=
  if c.buf == blk.dataEnd then none
  else
    match c.lastKey with
    | none =>
      if c.shared == 0 then some ((blk.data.drop c.buf).take c.unshared) else none
    | some lk =>
      some ((blk.data.drop lk).take c.shared ++ (blk.data.drop c.buf).take c.unshared)

/-- `BlockConstIterator::Value()`. -/
def BCursor.Value (blk : Block) (c : BCursor) : List Nat :=
  (blk.data.drop (c.buf + c.unshared)).take c.valueLen

/-- `BlockConstIterator::increment()`: remember the current position in
`last_key_`, then re-init at the byte after this entry's value. -/
def BCursor.increment (blk : Block) (c : BCursor) : BCursor :=
  BCursor.init blk { c with lastKey := some c.buf } (c.buf + c.unshared + c.valueLen)

/-- Three-way bytewise comparison (`Comparator::Compare` of the default
bytewise comparator): negative, zero or positive. -/
def lcmp : List Nat → List Nat → Int
  | [], [] => 0
  | [], _ :: _ => -1
  | _ :: _, [] => 1
  | a :: as2, b :: bs => if a < b then -1 else if b < a then 1 else lcmp as2 bs

/-- The `while (rb - lb > 1)` binary-search loop of `Block::lower_bound`,
with explicit fuel (any fuel at least the initial width works). -/
def lbLoop (blk : Block) (target : List Nat) : Nat → Nat → Nat → Nat
  | 0, lb, _ => lb
  | fuel + 1, lb, rb =>
    if rb - lb > 1 then
      let mid := (lb + rb) / 2
      if 0 ≤ lcmp (blk.keyAtRestartPoint mid) target then lbLoop blk target fuel lb mid
      else lbLoop blk target fuel mid rb
    else lb

/-- The linear `for (; it != end(); it++)` scan of `Block::lower_bound`.
`none` stands for behaviour the C++ leaves undefined on this path: a
`Key()` call that violates its precondition, or a non-terminating loop
(fuel exhaustion). -/
def scanLoop (blk : Block) (target : List Nat) : Nat → BCursor → Option BCursor
  | 0, _ => none
  | fuel + 1, it =>
    if it.equal blk.endC then some it
    else
      match it.Key blk with
      | none => none
      | some ky =>
        if 0 ≤ lcmp ky target then some it
        else scanLoop blk target fuel (it.increment blk)

/-- `Block::lower_bound(target)`. -/
def Block.lower_bound (blk : Block) (target : List Nat) : Option BCursor :=
  let lb := lbLoop blk target (blk.numRestart + 1) 0 blk.numRestart
  if 0 < lcmp (blk.keyAtRestartPoint lb) target then some blk.endC
  else
    scanLoop blk target (blk.dataEnd + 1)
      (mkCursor blk (blk.restartPoint lb) (blk.restartPoint lb))

/-- `Block::find(target)`: compare `it.Key()` against the probe — note the
`Key()` call happens before any end check. -/
def Block.find (blk : Block) (target : List Nat) : Option BCursor :=
  match blk.lower_bound target with
  | none => none
  | some it =>
    match it.Key blk with
    | none => none
    | some ky => if lcmp ky target ≠ 0 then some blk.endC else some it

/-- The reference linear decoder of a block's entry area: each entry's full
key is the first `shared` bytes of the previous full key followed by the
stored `unshared` bytes (the documented format). `none` on any malformed
entry. -/
def decodeGo (blk : Block) : Nat → List Nat → Nat → Option (List (List Nat × List Nat))
  | 0, _, _ => none
  | fuel + 1, prevKey, pos =>
    if pos < blk.dataEnd then
      match getVar32 (blk.region pos) with
      | none => none
      | some (sh, b1) =>
        match getVar32 b1 with
        | none => none
        | some (ush, b2) =>
          match getVar32 b2 with
          | none => none
          | some (vl, b3) =>
            if sh ≤ prevKey.length ∧ ush + vl ≤ b3.length then
              let keyOff := blk.dataEnd - b3.length
              let ky := prevKey.take sh ++ (blk.data.drop keyOff).take ush
              match decodeGo blk fuel ky (keyOff + ush + vl) with
              | none => none
              | some rest => some ((ky, (blk.data.drop (keyOff + ush)).take vl) :: rest)
            else none
    else if pos = blk.dataEnd then some [] else none

def decodeAll (blk : Block) : Option (List (List Nat × List Nat)) :=
  decodeGo blk (blk.dataEnd + 1) [] 0

/-- Progressive parse of the three varint length fields of an entry, as
`init` performs it: `none` iff any of the three fails. -/
def parse3 (l : List Nat) : Option (Nat × Nat × Nat × List Nat) :=
  match getVar32 l with
  | none => none
  | some (a, l1) =>
    match getVar32 l1 with
    | none => none
    | some (b, l2) =>
      match getVar32 l2 with
      | none => none
      | some (c, l3) => some (a, b, c, l3)

/-! ## Facts about the bytewise comparison -/

theorem lcmp_eq_zero_iff : ∀ (a b : List Nat), lcmp a b = 0 ↔ a = b
  | [], [] => by simp [lcmp]
  | [], _ :: _ => by simp [lcmp]
  | _ :: _, [] => by simp [lcmp]
  | a :: as2, b :: bs => by
    simp only [lcmp, List.cons.injEq]
    rcases Nat.lt_trichotomy a b with h | h | h
    · rw [if_pos h]
      constructor
      · intro hh
        exact absurd hh (by decide)
      · rintro ⟨rfl, -⟩
        omega
    · subst h
      rw [if_neg (by omega), if_neg (by omega)]
      rw [lcmp_eq_zero_iff as2 bs]
      simp
    · rw [if_neg (by omega), if_pos h]
      constructor
      · intro hh
        exact absurd hh (by decide)
      · rintro ⟨rfl, -⟩
        omega

theorem lcmp_swap : ∀ (a b : List Nat), lcmp b a = -lcmp a b
  | [], [] => by simp [lcmp]
  | [], _ :: _ => by simp [lcmp]
  | _ :: _, [] => by simp [lcmp]
  | a :: as2, b :: bs => by
    simp only [lcmp]
    rcases Nat.lt_trichotomy a b with h | h | h
    · rw [if_neg (by omega : ¬ b < a), if_pos h, if_pos h]
      decide
    · subst h
      rw [if_neg (by omega : ¬ a < a), if_neg (by omega : ¬ a < a),
        if_neg (by omega : ¬ a < a), if_neg (by omega : ¬ a < a)]
      exact lcmp_swap as2 bs
    · rw [if_pos h, if_neg (by omega : ¬ a < b), if_pos h]

theorem lcmp_trans_neg : ∀ (a b c : List Nat),
    lcmp a b < 0 → lcmp b c < 0 → lcmp a c < 0
  | [], [], _ => by
    intro h _
    simp [lcmp] at h
  | [], _ :: _, [] => by
    intro _ h
    simp [lcmp] at h
  | [], _ :: _, _ :: _ => by
    intro _ _
    show (-1 : Int) < 0
    decide
  | _ :: _, [], _ => by
    intro h _
    simp [lcmp] at h
  | _ :: _, _ :: _, [] => by
    intro _ h
    simp [lcmp] at h
  | a :: as2, b :: bs, c :: cs => by
    intro h1 h2
    simp only [lcmp] at h1 h2 ⊢
    rcases Nat.lt_trichotomy a b with hab | hab | hab
    · rcases Nat.lt_trichotomy b c with hbc | hbc | hbc
      · rw [if_pos (by omega : a < c)]
        decide
      · subst hbc
        rw [if_pos hab]
        decide
      · rw [if_neg (by omega : ¬ b < c), if_pos hbc] at h2
        exact absurd h2 (by decide)
    · subst hab
      rw [if_neg (by omega : ¬ a < a), if_neg (by omega : ¬ a < a)] at h1
      rcases Nat.lt_trichotomy a c with hac | hac | hac
      · rw [if_pos hac]
        decide
      · subst hac
        rw [if_neg (by omega : ¬ a < a), if_neg (by omega : ¬ a < a)] at h2 ⊢
        exact lcmp_trans_neg as2 bs cs h1 h2
      · rw [if_neg (by omega : ¬ a < c), if_pos hac] at h2
        exact absurd h2 (by decide)
    · rw [if_neg (by omega : ¬ a < b), if_pos hab] at h1
      exact absurd h1 (by decide)

theorem endC_buf (blk : Block) : blk.endC.buf = blk.dataEnd := by
  unfold Block.endC mkCursor BCursor.init
  rw [if_neg (by omega : ¬ 0 < blk.dataEnd - blk.dataEnd)]

/-! ## The binary search of `Block::lower_bound` -/

theorem lbLoop_spec (blk : Block) (target : List Nat)
    (hmono : ∀ j, j < blk.numRestart → ∀ i, i < j →
      lcmp (blk.keyAtRestartPoint i) (blk.keyAtRestartPoint j) < 0) :
    ∀ (fuel lb rb : Nat), lb < rb → rb ≤ blk.numRestart → rb - lb ≤ fuel →
      (∀ i, rb ≤ i → i < blk.numRestart →
        ¬ lcmp (blk.keyAtRestartPoint i) target < 0) →
      (lcmp (blk.keyAtRestartPoint lb) target < 0 ∨ lb = 0) →
      lb ≤ lbLoop blk target fuel lb rb ∧ lbLoop blk target fuel lb rb < rb ∧
        (∀ i, lbLoop blk target fuel lb rb < i → i < blk.numRestart →
          ¬ lcmp (blk.keyAtRestartPoint i) target < 0) ∧
        (lcmp (blk.keyAtRestartPoint (lbLoop blk target fuel lb rb)) target < 0 ∨
          lbLoop blk target fuel lb rb = 0)
  | 0, lb, rb => by
    intro h1 _ h3 _ _
    omega
  | fuel + 1, lb, rb => by
    intro h1 h2 h3 hout hself
    by_cases hw : rb - lb > 1
    · by_cases hcmp : 0 ≤ lcmp (blk.keyAtRestartPoint ((lb + rb) / 2)) target
      · have heq : lbLoop blk target (fuel + 1) lb rb =
            lbLoop blk target fuel lb ((lb + rb) / 2) := by
          simp only [lbLoop]
          rw [if_pos hw, if_pos hcmp]
        have hrec := lbLoop_spec blk target hmono fuel lb ((lb + rb) / 2)
          (by omega) (by omega) (by omega) ?_ hself
        · rw [heq]
          obtain ⟨ha, hb, hc, hd⟩ := hrec
          exact ⟨ha, by omega, hc, hd⟩
        · intro i hi hinr
          rcases Nat.eq_or_lt_of_le hi with rfl | hlt
          · omega
          · intro hcon
            have hmi := hmono i hinr ((lb + rb) / 2) hlt
            have := lcmp_trans_neg _ _ _ hmi hcon
            omega
      · have heq : lbLoop blk target (fuel + 1) lb rb =
            lbLoop blk target fuel ((lb + rb) / 2) rb := by
          simp only [lbLoop]
          rw [if_pos hw, if_neg hcmp]
        have hrec := lbLoop_spec blk target hmono fuel ((lb + rb) / 2) rb
          (by omega) h2 (by omega) hout (Or.inl (by omega))
        rw [heq]
        obtain ⟨ha, hb, hc, hd⟩ := hrec
        exact ⟨by omega, hb, hc, hd⟩
    · have heq : lbLoop blk target (fuel + 1) lb rb = lb := by
        simp only [lbLoop]
        rw [if_neg hw]
      rw [heq]
      refine ⟨Nat.le_refl lb, h1, ?_, hself⟩
      intro i hi hinr
      exact hout i (by omega) hinr

/-- C3: the binary search over restart indices returns the highest-indexed
restart point whose key is strictly less than the target (index 0 when none
is); if that restart key exceeds the target the end cursor is returned,
otherwise a cursor advances linearly from that restart offset until a key
not less than the target or the block end. -/
theorem claim_C3 (blk : Block) (target : List Nat)
    (hnr : 0 < blk.numRestart)
    (hmono : ∀ j, j < blk.numRestart → ∀ i, i < j →
      lcmp (blk.keyAtRestartPoint i) (blk.keyAtRestartPoint j) < 0) :
    lbLoop blk target (blk.numRestart + 1) 0 blk.numRestart < blk.numRestart ∧
    (∀ i, i < blk.numRestart → lcmp (blk.keyAtRestartPoint i) target < 0 →
      i ≤ lbLoop blk target (blk.numRestart + 1) 0 blk.numRestart) ∧
    (lcmp (blk.keyAtRestartPoint
        (lbLoop blk target (blk.numRestart + 1) 0 blk.numRestart)) target < 0 ∨
      lbLoop blk target (blk.numRestart + 1) 0 blk.numRestart = 0) ∧
    (0 < lcmp (blk.keyAtRestartPoint
        (lbLoop blk target (blk.numRestart + 1) 0 blk.numRestart)) target →
      blk.lower_bound target = some blk.endC) ∧
    (lcmp (blk.keyAtRestartPoint
        (lbLoop blk target (blk.numRestart + 1) 0 blk.numRestart)) target ≤ 0 →
      blk.lower_bound target =
        scanLoop blk target (blk.dataEnd + 1)
          (mkCursor blk
            (blk.restartPoint (lbLoop blk target (blk.numRestart + 1) 0 blk.numRestart))
            (blk.restartPoint (lbLoop blk target (blk.numRestart + 1) 0 blk.numRestart)))) := by
  obtain ⟨h0, hlt, hmax, hor⟩ := lbLoop_spec blk target hmono (blk.numRestart + 1) 0
    blk.numRestart hnr (Nat.le_refl _) (by omega)
    (fun i hi hinr => absurd hi (by omega)) (Or.inr rfl)
  refine ⟨hlt, ?_, hor, ?_, ?_⟩
  · intro i hinr hklt
    by_contra hc
    exact absurd hklt (hmax i (by omega) hinr)
  · intro h
    simp only [Block.lower_bound]
    rw [if_pos h]
  · intro h
    simp only [Block.lower_bound]
    rw [if_neg (by omega : ¬ 0 < lcmp (blk.keyAtRestartPoint
      (lbLoop blk target (blk.numRestart + 1) 0 blk.numRestart)) target)]

/-! ## Concrete blocks -/

/-- A well-formed three-entry block: keys "aa", "ab", "ac" (prefix
compressed, restart stride covering all three), one restart at offset 0. -/
def B0 : Block :=
  ⟨[0, 2, 1, 97, 97, 120, 1, 1, 1, 98, 121, 1, 1, 1, 99, 122, 0, 0, 0, 0, 1, 0, 0, 0]⟩

/-- The same entry layout with different values. -/
def B1 : Block :=
  ⟨[0, 2, 1, 97, 97, 50, 1, 1, 1, 98, 51, 1, 1, 1, 99, 52, 0, 0, 0, 0, 1, 0, 0, 0]⟩

/-- A one-entry block with key "b". -/
def B2 : Block := ⟨[0, 1, 1, 98, 60, 0, 0, 0, 0, 1, 0, 0, 0]⟩

/-- A block whose single entry area is the lone byte 128: a truncated
varint. -/
def BBad : Block := ⟨[128, 0, 0, 0, 0, 1, 0, 0, 0]⟩

theorem claim_C3_witness :
    lbLoop B0 [97, 98] (B0.numRestart + 1) 0 B0.numRestart < B0.numRestart ∧
    (∀ i, i < B0.numRestart → lcmp (B0.keyAtRestartPoint i) [97, 98] < 0 →
      i ≤ lbLoop B0 [97, 98] (B0.numRestart + 1) 0 B0.numRestart) ∧
    (lcmp (B0.keyAtRestartPoint
        (lbLoop B0 [97, 98] (B0.numRestart + 1) 0 B0.numRestart)) [97, 98] < 0 ∨
      lbLoop B0 [97, 98] (B0.numRestart + 1) 0 B0.numRestart = 0) ∧
    (0 < lcmp (B0.keyAtRestartPoint
        (lbLoop B0 [97, 98] (B0.numRestart + 1) 0 B0.numRestart)) [97, 98] →
      B0.lower_bound [97, 98] = some B0.endC) ∧
    (lcmp (B0.keyAtRestartPoint
        (lbLoop B0 [97, 98] (B0.numRestart + 1) 0 B0.numRestart)) [97, 98] ≤ 0 →
      B0.lower_bound [97, 98] =
        scanLoop B0 [97, 98] (B0.dataEnd + 1)
          (mkCursor B0
            (B0.restartPoint (lbLoop B0 [97, 98] (B0.numRestart + 1) 0 B0.numRestart))
            (B0.restartPoint (lbLoop B0 [97, 98] (B0.numRestart + 1) 0 B0.numRestart)))) :=
  claim_C3 B0 [97, 98] (by decide) (by decide)

/-- C2: counterexample. `B0` honours the restart invariants (well-formed
decode, strictly increasing keys, zero shared length at its restart
offset), yet `find` misses the present key "ac" (returns the end cursor)
and `lower_bound` of the probe "b" stops before the end although a linear
scan over the decoded entries finds no key not less than "b". -/
theorem claim_C2 :
    decodeAll B0 = some [([97, 97], [120]), ([97, 98], [121]), ([97, 99], [122])] ∧
    lcmp [97, 97] [97, 98] < 0 ∧ lcmp [97, 98] [97, 99] < 0 ∧
    B0.numRestart = 1 ∧ B0.restartPoint 0 = 0 ∧
    (getVar32 (B0.region (B0.restartPoint 0))).map Prod.fst = some 0 ∧
    ((decodeAll B0).map fun es => es.find? fun e => lcmp e.1 [97, 99] == 0) =
      some (some ([97, 99], [122])) ∧
    B0.find [97, 99] = some B0.endC ∧
    ((decodeAll B0).map fun es => es.find? fun e => decide (0 ≤ lcmp e.1 [98])) =
      some none ∧
    (B0.lower_bound [98]).map (fun c => c.equal B0.endC) = some false := by
  decide

/-- C4: counterexample. In `B1`, an in-sequence scan reaching the third
entry (true key "ac" = shared prefix of the previous full key "ab" plus the
stored byte "c") has `Key()` produce "bc" instead, because `increment`
caches the raw buffer position rather than the previous full key; and a
cursor built directly at that entry (previous key not cached) gets no key
at all, because `Key()` discards the replayed iterator and reads through
the still-null `last_key_`. -/
theorem claim_C4 :
    decodeAll B1 = some [([97, 97], [50]), ([97, 98], [51]), ([97, 99], [52])] ∧
    ((B1.beginC.increment B1).increment B1).shared = 1 ∧
    ((B1.beginC.increment B1).increment B1).unshared = 1 ∧
    ((B1.beginC.increment B1).increment B1).Key B1 = some [98, 99] ∧
    [98, 99] ≠ [97, 98].take 1 ++ [99] ∧
    (mkCursor B1 11 0).Key B1 = none := by
  decide

/-- C10: whenever `lower_bound` returns the end cursor — end under the
code's own iterator comparison, which covers both the
first-restart-key-exceeds-target branch and the scan-exhaustion branch
(target above every key) — `find` evaluates `Key()` on it, violating the
non-end precondition (modelled as `Key` being `none`), instead of
returning the end cursor directly. -/
theorem claim_C10 (blk : Block) (target : List Nat) (c : BCursor)
    (h : blk.lower_bound target = some c) (hend : c.equal blk.endC = true) :
    c.Key blk = none ∧ blk.find target = none := by
  have hbuf : c.buf = blk.dataEnd := by
    unfold BCursor.equal at hend
    rw [Bool.and_eq_true] at hend
    have h1 : c.buf = blk.endC.buf := by
      have := hend.1
      simpa using this
    rw [h1, endC_buf]
  have hk : c.Key blk = none := by
    unfold BCursor.Key
    rw [if_pos (by rw [hbuf]; simp)]
  refine ⟨hk, ?_⟩
  unfold Block.find
  simp only [h, hk]

theorem claim_C10_witness :
    (B2.endC.Key B2 = none ∧ B2.find [97] = none) ∧
    ((⟨5, 0, 0, 1, 1, some 3, 0, true⟩ : BCursor).Key B2 = none ∧
      B2.find [99] = none) :=
  ⟨claim_C10 B2 [97] B2.endC (by decide) (by decide),
   claim_C10 B2 [99] ⟨5, 0, 0, 1, 1, some 3, 0, true⟩ (by decide) (by decide)⟩

/-- C9: for a cursor advanced into a block region, `init` records a
decode failure on the cursor (status not OK) exactly when parsing the
three varint length fields fails, rather than halting; a successful parse
leaves the status untouched. -/
theorem claim_C9 (blk : Block) (c : BCursor) (p : Nat) (hp : p < blk.dataEnd)
    (hok : c.ok = true) :
    (BCursor.init blk c p).ok = (parse3 (blk.region p)).isSome := by
  unfold BCursor.init parse3
  rw [if_pos (by omega : 0 < blk.dataEnd - p)]
  cases h1 : getVar32 (blk.region p) with
  | none => simp [h1]
  | some v1 =>
    obtain ⟨sh, b1⟩ := v1
    cases h2 : getVar32 b1 with
    | none => simp [h1, h2]
    | some v2 =>
      obtain ⟨ush, b2⟩ := v2
      cases h3 : getVar32 b2 with
      | none => simp [h1, h2, h3]
      | some v3 =>
        obtain ⟨vl, b3⟩ := v3
        by_cases hu : ush == 0
        · simp [h1, h2, h3, hu, hok]
        · simp [h1, h2, h3, hu, hok]

theorem claim_C9_witness :
    0 < BBad.dataEnd ∧
    (BCursor.init BBad ⟨0, 0, 0, 0, 0, none, 0, true⟩ 0).ok =
      (parse3 (BBad.region 0)).isSome ∧
    parse3 (BBad.region 0) = none :=
  ⟨by decide, claim_C9 BBad ⟨0, 0, 0, 0, 0, none, 0, true⟩ 0 (by decide) rfl, by decide⟩

/-! ## MemTable (`MemTable.cc`)

`MemTable.h`, `InternalKey.h` and `Coding.h` are not among the
repository's files; the encoding helpers and the internal-key comparator
below are modelled from the spec. -/

/-- Modelled from the spec: `coding::AppendVar32`, base-128 varint (a
32-bit value takes at most 5 bytes). -/
def putVar32Go : Nat → Nat → List Nat
  | 0, n => [n % 128]
  | fuel + 1, n => if n < 128 then [n] else (n % 128 + 128) :: putVar32Go fuel (n / 128)

def putVar32 (n : Nat) : List Nat := putVar32Go 5 n

/-- Modelled from the spec: `coding::AppendVarString`, a length-prefixed
string. -/
def varString (s : List Nat) : List Nat := putVar32 s.length ++ s

/-- Modelled from the spec: the 8-byte little-endian tag trailer of an
internal key. -/
def putFixed64 (n : Nat) : List Nat :=
  [n % 256, n / 256 % 256, n / 65536 % 256, n / 16777216 % 256,
   n / 4294967296 % 256, n / 1099511627776 % 256, n / 281474976710656 % 256,
   n / 72057594037927936 % 256]

def getFixed64 (l : List Nat) : Nat :=
  l.getD 0 0 + 256 * l.getD 1 0 + 65536 * l.getD 2 0 + 16777216 * l.getD 3 0 +
    4294967296 * l.getD 4 0 + 1099511627776 * l.getD 5 0 +
    281474976710656 * l.getD 6 0 + 72057594037927936 * l.getD 7 0

/-- Modelled from the spec: `InternalKeyBuf(key, sequence, type).Data()`,
the user key followed by the 8-byte tag `sequence << 8 | type`. -/
def internalKeyBuf (ukey : List Nat) (seq ty : Nat) : List Nat :=
  ukey ++ putFixed64 (seq * 256 + ty)

/-- Modelled from the spec: read a length-prefixed string. -/
def getVarString (l : List Nat) : Option (List Nat × List Nat) :=
  match getVar32 l with
  | none => none
  | some (n, rest) =>
    if n ≤ rest.length then some (rest.take n, rest.drop n) else none

/-- The internal-key prefix of a stored entry (junk `[]` on a buffer no
`Add` produced). -/
def entryIK (e : List Nat) : List Nat := ((getVarString e).map Prod.fst).getD []

/-- Modelled from the spec: the internal-key comparator — user keys
ascending bytewise, ties broken by descending tag. -/
def internalLt (k1 k2 : List Nat) : Bool :=
  if lcmp (k1.take (k1.length - 8)) (k2.take (k2.length - 8)) < 0 then true
  else if lcmp (k1.take (k1.length - 8)) (k2.take (k2.length - 8)) = 0 then
    decide (getFixed64 (k2.drop (k2.length - 8)) < getFixed64 (k1.drop (k1.length - 8)))
  else false

/-- The comparator the Ordered List of the MemTable runs on: extract each
entry's internal-key prefix and compare. -/
def memLt (e1 e2 : List Nat) : Bool := internalLt (entryIK e1) (entryIK e2)

/-- The buffer `MemTable::Add` serializes: length-prefixed internal key,
then length-prefixed value. -/
def memEntry (seq ty : Nat) (key value : List Nat) : List Nat :=
  varString (internalKeyBuf key seq ty) ++ varString value

def MemTable0 : SkipList (List Nat) := SkipList.empty []

/-- `MemTable::Add`: build the entry and insert it into the Ordered
List. -/
def memAdd (st : SkipList (List Nat)) (seq ty : Nat) (key value : List Nat)
    (draws : List Nat) : SkipList (List Nat) :=
  (st.Insert memLt (memEntry seq ty key value) draws).1

theorem internalLt_iff {k1 k2 : List Nat} :
    internalLt k1 k2 = true ↔
      lcmp (k1.take (k1.length - 8)) (k2.take (k2.length - 8)) < 0 ∨
        (k1.take (k1.length - 8) = k2.take (k2.length - 8) ∧
          getFixed64 (k2.drop (k2.length - 8)) < getFixed64 (k1.drop (k1.length - 8))) := by
  unfold internalLt
  by_cases h1 : lcmp (k1.take (k1.length - 8)) (k2.take (k2.length - 8)) < 0
  · simp [h1]
  · rw [if_neg h1]
    by_cases h2 : lcmp (k1.take (k1.length - 8)) (k2.take (k2.length - 8)) = 0
    · rw [if_pos h2]
      have he := (lcmp_eq_zero_iff _ _).1 h2
      rw [he,
        (lcmp_eq_zero_iff (k2.take (k2.length - 8)) (k2.take (k2.length - 8))).2 rfl]
      simp
    · rw [if_neg h2]
      constructor
      · intro h
        exact absurd h (by simp)
      · rintro (h | ⟨h, -⟩)
        · exact absurd h h1
        · exact absurd ((lcmp_eq_zero_iff _ _).2 h) h2

theorem internalLt_swo : IsSWO internalLt := by
  refine ⟨?_, ?_, ?_⟩
  · intro a
    rw [Bool.eq_false_iff]
    intro h
    rcases internalLt_iff.1 h with h | ⟨-, h⟩
    · rw [(lcmp_eq_zero_iff _ _).2 rfl] at h
      exact absurd h (by decide)
    · omega
  · intro a b c hab hbc
    rw [internalLt_iff] at hab hbc ⊢
    rcases hab with h1 | ⟨h1, t1⟩ <;> rcases hbc with h2 | ⟨h2, t2⟩
    · exact Or.inl (lcmp_trans_neg _ _ _ h1 h2)
    · exact Or.inl (h2 ▸ h1)
    · exact Or.inl (h1 ▸ h2)
    · exact Or.inr ⟨h1.trans h2, by omega⟩
  · intro a b c h1 h2 h3 h4
    have key : ∀ x y : List Nat, internalLt x y = false → internalLt y x = false →
        x.take (x.length - 8) = y.take (y.length - 8) ∧
          getFixed64 (x.drop (x.length - 8)) = getFixed64 (y.drop (y.length - 8)) := by
      intro x y hxy hyx
      have hxn : ¬(internalLt x y = true) := fun hc => by
        rw [hxy] at hc
        exact absurd hc (by decide)
      have hyn : ¬(internalLt y x = true) := fun hc => by
        rw [hyx] at hc
        exact absurd hc (by decide)
      rw [internalLt_iff] at hxn
      rw [internalLt_iff] at hyn
      push_neg at hxn hyn
      obtain ⟨hx1, hx2⟩ := hxn
      obtain ⟨hy1, hy2⟩ := hyn
      have hsw := lcmp_swap (x.take (x.length - 8)) (y.take (y.length - 8))
      have h0 : lcmp (x.take (x.length - 8)) (y.take (y.length - 8)) = 0 := by omega
      have he := (lcmp_eq_zero_iff _ _).1 h0
      refine ⟨he, ?_⟩
      have := hx2 he
      have := hy2 he.symm
      omega
    obtain ⟨e1, t1⟩ := key a b h1 h2
    obtain ⟨e2, t2⟩ := key b c h3 h4
    constructor
    · rw [Bool.eq_false_iff]
      intro h
      rcases internalLt_iff.1 h with h | ⟨-, h⟩
      · rw [e1, e2, (lcmp_eq_zero_iff _ _).2 rfl] at h
        exact absurd h (by decide)
      · omega
    · rw [Bool.eq_false_iff]
      intro h
      rcases internalLt_iff.1 h with h | ⟨-, h⟩
      · rw [← e2, ← e1, (lcmp_eq_zero_iff _ _).2 rfl] at h
        exact absurd h (by decide)
      · omega

theorem memLt_swo : IsSWO memLt :=
  ⟨fun a => internalLt_swo.irrefl (entryIK a),
   fun a b c => internalLt_swo.trans (entryIK a) (entryIK b) (entryIK c),
   fun a b c => internalLt_swo.incomp_trans (entryIK a) (entryIK b) (entryIK c)⟩

/-- C8: `Add` stores one buffer holding the length-prefixed internal key
followed by the length-prefixed value and inserts it under the
internal-key comparator; adding (seq=5, Value, "a", "x") then
(seq=6, Value, "a", "y") yields the seq=6 entry before the seq=5 entry in
traversal, for every choice of random draws. -/
theorem claim_C8 :
    (∀ (seq ty : Nat) (key value : List Nat) (st : SkipList (List Nat))
        (draws : List Nat),
      memAdd st seq ty key value draws =
        (st.Insert memLt (varString (internalKeyBuf key seq ty) ++ varString value)
          draws).1) ∧
    memEntry 5 1 [97] [120] = [9, 97, 1, 5, 0, 0, 0, 0, 0, 0, 1, 120] ∧
    memEntry 6 1 [97] [121] = [9, 97, 1, 6, 0, 0, 0, 0, 0, 0, 1, 121] ∧
    ∀ d1 d2 : List Nat,
      (memAdd (memAdd MemTable0 5 1 [97] [120] d1) 6 1 [97] [121] d2).toList =
        [memEntry 6 1 [97] [121], memEntry 5 1 [97] [120]] := by
  refine ⟨fun seq ty key value st draws => rfl, by decide, by decide, ?_⟩
  intro d1 d2
  have h := (insertSeq_wf memLt_swo ([] : List Nat)
    [(memEntry 5 1 [97] [120], d1), (memEntry 6 1 [97] [121], d2)]).2
  have he : memAdd (memAdd MemTable0 5 1 [97] [120] d1) 6 1 [97] [121] d2 =
      insertSeq memLt []
        [(memEntry 5 1 [97] [120], d1), (memEntry 6 1 [97] [121], d2)] := rfl
  rw [he, h]
  simp only [List.foldl_cons, List.foldl_nil]
  decide

end LessDB
